import Mathlib

/-!
# EKT transaction pool: the per-account nonce reordering buffer

A shallow embedding of `pool/sorted.go` (NonceList, UserTxs, UsersTxs) and of
`core/userevent/transaction.go` (Transaction, TransactionReceipt, QuickInsert),
followed by theorems about what the code does.

Modelling conventions

* `int64` values are `Int`; the only arithmetic the pool performs on them is
  `x + 1` (`sorted.Nonce+1`, `lastNonce+1`, `lastNonce++`), which is modelled by
  `wrap64 (x + 1)`, the two's-complement wrap-around of Go.  Values that come in
  from callers are constrained by `isInt64` where a theorem needs it.
* `[]byte` is `List UInt8`, a Go `string` is a `String`.
* `*userevent.Transaction` is `Option Transaction` (`none` is the nil pointer).
  A `map[int64]*Transaction` is a function `Int → Option Transaction`: the code
  only ever reads the map through `m[k] != nil`, writes `m[k] = tx` with a
  non-nil `tx`, and `delete`s, so an absent key and a nil value are the same.
* A method that mutates its receiver returns the new receiver as the first
  component of its result.  A nil slice result is the empty list.
* The `sync.RWMutex` of `UsersTxs` serialises the calls; a call is modelled as
  one atomic state transformer.
-/

namespace userevent

/-- The Go type `types.HexBytes`, a byte slice. -/
abbrev HexBytes := List UInt8

/-- The struct `Transaction` of `core/userevent/transaction.go`. -/
structure Transaction where
  From : HexBytes
  To : HexBytes
  TimeStamp : Int
  Amount : Int
  Fee : Int
  Nonce : Int
  Data : String
  TokenAddress : String
  Sign : HexBytes
deriving DecidableEq

/-- `NewTransaction` (its parameters `from` and `to` are `sender` and `recipient`
here); the signature is left nil. -/
def NewTransaction (sender recipient : HexBytes) (timestamp amount fee nonce : Int)
    (data tokenAddress : String) : Transaction :=
  { From := sender, To := recipient, TimeStamp := timestamp, Amount := amount, Fee := fee,
    Nonce := nonce, Data := data, TokenAddress := tokenAddress, Sign := [] }

end userevent

namespace hex

/-- The digit table of Go's `encoding/hex`. -/
def hextable : List Char := "0123456789abcdef".toList

/-- Go's `hex.EncodeToString`: two lower-case hex digits per byte. -/
def EncodeToString (src : List UInt8) : String :=
  String.mk (List.flatten (src.map fun v =>
    [hextable.getD (v.toNat / 16) '0', hextable.getD (v.toNat % 16) '0']))

end hex

namespace pool

open userevent

/-- Smallest `int64`. -/
def int64Min : Int := -9223372036854775808

/-- Largest `int64`. -/
def int64Max : Int := 9223372036854775807

/-- The value is representable as an `int64`. -/
def isInt64 (x : Int) : Prop := int64Min ≤ x ∧ x ≤ int64Max

instance (x : Int) : Decidable (isInt64 x) :=
  inferInstanceAs (Decidable (int64Min ≤ x ∧ x ≤ int64Max))

/-- Two's-complement wrap-around of a mathematical integer into `int64`. -/
def wrap64 (x : Int) : Int :=
  (x + 9223372036854775808) % 18446744073709551616 - 9223372036854775808

/-- A possibly nil `*userevent.Transaction`. -/
abbrev TxPtr := Option Transaction

/-- The Go type `map[int64]*userevent.Transaction`. -/
abbrev TxMap := Int → TxPtr

/-- The map `make(map[int64]*userevent.Transaction)`. -/
def TxMap.empty : TxMap := fun _ => none

/-- The assignment `m[k] = v`. -/
def TxMap.set (m : TxMap) (k : Int) (v : TxPtr) : TxMap :=
  fun j => if j = k then v else m j

/-- The statement `delete(m, k)`. -/
def TxMap.delete (m : TxMap) (k : Int) : TxMap :=
  fun j => if j = k then none else m j

/-- The Go type `NonceList`, a slice of `int64`. -/
abbrev NonceList := List Int

/-- `NewNonceList`: the empty list. -/
def NewNonceList : NonceList := []

/-- The `for i, n := range *list` loop of `NonceList.Insert`.  The first argument
is what is left of `*list` from index `i` on, the second is `newList`.  The
result is `some l` when the loop executes `*list = l; return`, and `none` when
the loop runs off the end of the list, in which case `*list` is never
assigned. -/
def NonceList.insertLoop (nonce : Int) : List Int → List Int → Option NonceList
  | [], _ => none
  | n :: rest, newList =>
    if n < nonce then NonceList.insertLoop nonce rest (newList ++ [n])
    else some ((newList ++ [nonce]) ++ (n :: rest))

/-- `NonceList.Insert`: the value of `*list` after `list.Insert(nonce)`. -/
def NonceList.Insert (list : NonceList) (nonce : Int) : NonceList :=
  if list.length = 0 then list ++ [nonce]
  else
    match NonceList.insertLoop nonce list [] with
    | some newList => newList
    | none => list

/-- The loop of `NonceList.Delete` over the elements of `*list` still to visit;
the accumulator is `*newList`. -/
def NonceList.deleteLoop (nonce : Int) : List Int → NonceList → NonceList
  | [], newList => newList
  | n :: rest, newList =>
    if n ≠ nonce then NonceList.deleteLoop nonce rest (newList ++ [n])
    else NonceList.deleteLoop nonce rest newList

/-- `NonceList.Delete`: the value of `*list` after `list.Delete(nonce)`. -/
def NonceList.Delete (list : NonceList) (nonce : Int) : NonceList :=
  NonceList.deleteLoop nonce list NewNonceList

/-- The struct `UserTxs`: buffer map, pending index and watermark. -/
structure UserTxs where
  Txs : TxMap
  Nonces : NonceList
  Nonce : Int

/-- `NewUserTxs`. -/
def NewUserTxs (nonce : Int) : UserTxs :=
  { Txs := TxMap.empty, Nonces := NewNonceList, Nonce := nonce }

/-- The loop of `UserTxs.clearNonces`, over the elements `(*sorted.Nonces)[i]`
still to visit; the state is `sorted.Txs` and `newNonces`. -/
def UserTxs.clearLoop (watermark : Int) : List Int → TxMap × NonceList → TxMap × NonceList
  | [], acc => acc
  | nonce :: rest, (txs, newNonces) =>
    if nonce > watermark then
      UserTxs.clearLoop watermark rest (txs, NonceList.Insert newNonces nonce)
    else
      UserTxs.clearLoop watermark rest (TxMap.delete txs nonce, newNonces)

/-- `UserTxs.clearNonces`. -/
def UserTxs.clearNonces (sorted : UserTxs) : UserTxs :=
  let r := UserTxs.clearLoop sorted.Nonce sorted.Nonces (sorted.Txs, NewNonceList)
  { Txs := r.1, Nonces := r.2, Nonce := sorted.Nonce }

/-- The scan loop of `UserTxs.Save` over the elements `(*sorted.Nonces)[i]` still
to visit; the state is `list` and `lastNonce`. -/
def UserTxs.saveLoop (txs : TxMap) : List Int → List TxPtr × Int → List TxPtr × Int
  | [], acc => acc
  | n :: rest, (list, lastNonce) =>
    if n = wrap64 (lastNonce + 1) then
      UserTxs.saveLoop txs rest (list ++ [txs (wrap64 (lastNonce + 1))], wrap64 (lastNonce + 1))
    else
      UserTxs.saveLoop txs rest (list, lastNonce)

/-- `UserTxs.Save`: the new state of `sorted`, the returned slice and the returned
flag. -/
def UserTxs.Save (sorted : UserTxs) (tx : Transaction) : UserTxs × List TxPtr × Bool :=
  if sorted.Txs tx.Nonce ≠ none then (sorted, [], false)
  else
    let nonces := NonceList.Insert sorted.Nonces tx.Nonce
    let txs := TxMap.set sorted.Txs tx.Nonce (some tx)
    if tx.Nonce = wrap64 (sorted.Nonce + 1) then
      let r := UserTxs.saveLoop txs nonces ([some tx], tx.Nonce)
      (UserTxs.clearNonces { Txs := txs, Nonces := nonces, Nonce := r.2 }, r.1, true)
    else
      ({ Txs := txs, Nonces := nonces, Nonce := sorted.Nonce }, [], false)

/-- `UserTxs.Remove`. -/
def UserTxs.Remove (sorted : UserTxs) (tx : Transaction) : UserTxs :=
  let txs := if sorted.Txs tx.Nonce ≠ none then TxMap.delete sorted.Txs tx.Nonce
             else sorted.Txs
  let nonce := if sorted.Nonce < tx.Nonce then tx.Nonce else sorted.Nonce
  { Txs := txs, Nonces := NonceList.Delete sorted.Nonces tx.Nonce, Nonce := nonce }

/-- The struct `UsersTxs`: the map from the hex-encoded sender to its queue. -/
structure UsersTxs where
  m : String → Option UserTxs

/-- `NewUsersTxs`. -/
def NewUsersTxs : UsersTxs := { m := fun _ => none }

/-- The map key of a transaction, `hex.EncodeToString(tx.From)`. -/
def UsersTxs.key (tx : Transaction) : String := hex.EncodeToString tx.From

/-- The assignment `m.m[k] = userTxs`. -/
def UsersTxs.set (m : UsersTxs) (k : String) (userTxs : UserTxs) : UsersTxs :=
  { m := fun j => if j = k then some userTxs else m.m j }

/-- The first statements of `UsersTxs.SaveTx`: the queue found under the key of
`tx`, or a new one seeded with `userNonce`. -/
def UsersTxs.lookupOrNew (m : UsersTxs) (tx : Transaction) (userNonce : Int) : UserTxs :=
  match m.m (UsersTxs.key tx) with
  | some userTxs => userTxs
  | none => NewUserTxs userNonce

/-- `UsersTxs.SaveTx`: the new registry, the returned slice and the returned
flag. -/
def UsersTxs.SaveTx (m : UsersTxs) (tx : Transaction) (userNonce : Int) :
    UsersTxs × List TxPtr × Bool :=
  let userTxs := UsersTxs.lookupOrNew m tx userNonce
  if userTxs.Nonce ≥ tx.Nonce then (m, [], false)
  else
    let r := UserTxs.Save userTxs tx
    (UsersTxs.set m (UsersTxs.key tx) r.1, r.2.1, r.2.2)

/-- `UsersTxs.Notify`. -/
def UsersTxs.Notify (m : UsersTxs) (tx : Transaction) : UsersTxs :=
  match m.m (UsersTxs.key tx) with
  | some userTxs =>
    UsersTxs.set m (UsersTxs.key tx) (UserTxs.clearNonces { userTxs with Nonce := tx.Nonce })
  | none => m

/-- One call of the registry: `SaveTx(tx, userNonce)` or `Notify(tx)`. -/
inductive Call where
  | saveTx (tx : Transaction) (userNonce : Int)
  | notify (tx : Transaction)

/-- The registry after the calls of the list have been made on it, in order. -/
def UsersTxs.run (m : UsersTxs) : List Call → UsersTxs
  | [] => m
  | Call.saveTx tx userNonce :: rest => UsersTxs.run (UsersTxs.SaveTx m tx userNonce).1 rest
  | Call.notify tx :: rest => UsersTxs.run (UsersTxs.Notify m tx) rest

/-- The registry states the code can reach from `NewUsersTxs()` by calls of
`SaveTx` and `Notify` whose `int64` arguments are `int64` values. -/
inductive Reachable : UsersTxs → Prop
  | init : Reachable NewUsersTxs
  | saveTx (m : UsersTxs) (tx : Transaction) (userNonce : Int) :
      Reachable m → isInt64 tx.Nonce → isInt64 userNonce →
      Reachable (UsersTxs.SaveTx m tx userNonce).1
  | notify (m : UsersTxs) (tx : Transaction) :
      Reachable m → isInt64 tx.Nonce → Reachable (UsersTxs.Notify m tx)

/-- The registry states the code can reach from `NewUsersTxs()` by calls of
`SaveTx` alone. -/
inductive ReachableBySaveTx : UsersTxs → Prop
  | init : ReachableBySaveTx NewUsersTxs
  | saveTx (m : UsersTxs) (tx : Transaction) (userNonce : Int) :
      ReachableBySaveTx m → isInt64 tx.Nonce → isInt64 userNonce →
      ReachableBySaveTx (UsersTxs.SaveTx m tx userNonce).1

/-- What every queue of a reachable registry satisfies: the watermark is an
`int64` value, and every nonce of the pending index is above the watermark and
is a key of the buffer map under which a transaction with that nonce is stored. -/
def UserTxs.Inv (u : UserTxs) : Prop :=
  isInt64 u.Nonce ∧
    ∀ n ∈ u.Nonces, u.Nonce < n ∧ ∃ t : Transaction, u.Txs n = some t ∧ t.Nonce = n

/-- A transaction of the account with sender bytes `[0xab]` and the given nonce,
built with `NewTransaction`; the concrete inputs below use it. -/
def sampleTx (nonce : Int) : Transaction :=
  NewTransaction [0xab] [0xcd] 0 0 0 nonce "" ""

end pool

namespace utf8

/-- The constant `utf8.RuneSelf`: bytes below it are single-byte runes. -/
def RuneSelf : Nat := 0x80

/-- The constant `utf8.RuneError`, U+FFFD. -/
def RuneError : Nat := 0xFFFD

/-- The second byte of a multi-byte encoding whose first byte is `b0` is accepted
between these bounds (the `acceptRanges` entry that the `first` table of Go's
`unicode/utf8` assigns to `b0`). -/
def acceptRange (b0 : Nat) : Nat × Nat :=
  if b0 = 0xE0 then (0xA0, 0xBF)
  else if b0 = 0xED then (0x80, 0x9F)
  else if b0 = 0xF0 then (0x90, 0xBF)
  else if b0 = 0xF4 then (0x80, 0x8F)
  else (0x80, 0xBF)

/-- Go's `utf8.DecodeRune`: the first rune of `p` and its width in bytes; an
invalid or short encoding gives `(RuneError, 1)` and an empty slice gives
`(RuneError, 0)`.  The table look-ups of the library are written as
comparisons on the first byte. -/
def DecodeRune (p : List UInt8) : Nat × Nat :=
  match p with
  | [] => (RuneError, 0)
  | p0 :: rest =>
    let b0 := p0.toNat
    if b0 < 0x80 then (b0, 1)
    else if b0 < 0xC2 ∨ 0xF5 ≤ b0 then (RuneError, 1)
    else
      let sz := if b0 < 0xE0 then 2 else if b0 < 0xF0 then 3 else 4
      if p.length < sz then (RuneError, 1)
      else
        let b1 := (rest.getD 0 0).toNat
        if b1 < (acceptRange b0).1 ∨ (acceptRange b0).2 < b1 then (RuneError, 1)
        else if sz ≤ 2 then ((b0 % 32) * 64 + b1 % 64, 2)
        else
          let b2 := (rest.getD 1 0).toNat
          if b2 < 0x80 ∨ 0xBF < b2 then (RuneError, 1)
          else if sz ≤ 3 then ((b0 % 16) * 4096 + (b1 % 64) * 64 + b2 % 64, 3)
          else
            let b3 := (rest.getD 2 0).toNat
            if b3 < 0x80 ∨ 0xBF < b3 then (RuneError, 1)
            else ((b0 % 8) * 262144 + (b1 % 64) * 4096 + (b2 % 64) * 64 + b3 % 64, 4)

end utf8

namespace bytes

/-- The loop of Go's `bytes.EqualFold` on what is left of `s` and `t`.  Each turn
takes one rune from each side (a byte below `RuneSelf` directly, else through
`utf8.DecodeRune`), accepts equal runes, accepts an ASCII upper-case letter
against its lower-case letter, and in the general case asks `foldsTo lo hi`,
which stands for the `unicode.SimpleFold` orbit search of the library over the
Unicode case tables (a parameter here).  The first argument bounds the number of
turns; `none` means the bound was reached. -/
def equalFoldLoop (foldsTo : Nat → Nat → Bool) : Nat → List UInt8 → List UInt8 → Option Bool
  | 0, _, _ => none
  | fuel + 1, s, t =>
    match s, t with
    | s0 :: srest, t0 :: trest =>
      let sd := if s0.toNat < utf8.RuneSelf then (s0.toNat, srest)
                else ((utf8.DecodeRune s).1, s.drop (utf8.DecodeRune s).2)
      let td := if t0.toNat < utf8.RuneSelf then (t0.toNat, trest)
                else ((utf8.DecodeRune t).1, t.drop (utf8.DecodeRune t).2)
      if td.1 = sd.1 then equalFoldLoop foldsTo fuel sd.2 td.2
      else
        let lo := if td.1 < sd.1 then td.1 else sd.1
        let hi := if td.1 < sd.1 then sd.1 else td.1
        if hi < utf8.RuneSelf ∧ 65 ≤ lo ∧ lo ≤ 90 then
          if hi = lo + 32 then equalFoldLoop foldsTo fuel sd.2 td.2 else some false
        else if foldsTo lo hi then equalFoldLoop foldsTo fuel sd.2 td.2
        else some false
    | _, _ => some (decide (s.length = t.length))

/-- Go's `bytes.EqualFold`: equality of the two byte slices read as UTF-8 under
simple Unicode case folding.  Every turn of the loop consumes at least one byte
of `s`, so `len(s) + 1` turns are enough. -/
def EqualFold (foldsTo : Nat → Nat → Bool) (s t : List UInt8) : Option Bool :=
  equalFoldLoop foldsTo (s.length + 1) s t

end bytes

namespace userevent

/-- The struct `SubTransaction`. -/
structure SubTransaction where
  Parent : HexBytes
  From : HexBytes
  To : HexBytes
  Amount : Int
  Data : String
  TokenAddress : HexBytes
deriving DecidableEq

/-- The Go type `SubTransactions`. -/
abbrev SubTransactions := List SubTransaction

/-- The struct `TransactionReceipt`. -/
structure TransactionReceipt where
  TxId : HexBytes
  Fee : Int
  Success : Bool
  SubTransactions : SubTransactions
  FailType : Int
deriving DecidableEq

/-- `TransactionReceipt.EqualsTo`.  The `&&` chain evaluates `bytes.EqualFold`
only when fee, success flag and failure type agree.  The result is `some b`
when the call returns `b`. -/
def TransactionReceipt.EqualsTo (foldsTo : Nat → Nat → Bool)
    (receipt1 receipt2 : TransactionReceipt) : Option Bool :=
  if receipt1.Fee = receipt2.Fee ∧ receipt1.Success = receipt2.Success ∧
      receipt1.FailType = receipt2.FailType then
    bytes.EqualFold foldsTo receipt1.TxId receipt2.TxId
  else some false

/-- `Transaction.GetNonce`. -/
def Transaction.GetNonce (tx : Transaction) : Int := tx.Nonce

/-- `Transaction.SetSign`: the transaction after `tx.SetSign(sign)`. -/
def Transaction.SetSign (tx : Transaction) (sign : HexBytes) : Transaction :=
  { tx with Sign := sign }

/-- `Transaction.String`: the `fmt.Sprintf` of the source, `%s` of a string being
the string and `%d` of an `int64` its decimal numeral. -/
def Transaction.String (tx : Transaction) : String :=
  "\x7b\"from\": \"" ++ hex.EncodeToString tx.From ++
  "\", \"to\": \"" ++ hex.EncodeToString tx.To ++
  "\", \"time\": " ++ toString tx.TimeStamp ++
  ", \"amount\": " ++ toString tx.Amount ++
  ", \"fee\": " ++ toString tx.Fee ++
  ", \"nonce\": " ++ toString tx.Nonce ++
  ", \"data\": \"" ++ tx.Data ++
  "\", \"tokenAddress\": \"" ++ tx.TokenAddress ++ "\"\x7d"

/-- `Transaction.Msg`.  The hash `crypto.Sha3_256` is not among the sources and is
a parameter; `[]byte(s)` is the UTF-8 encoding of the string. -/
def Transaction.Msg (Sha3_256 : List UInt8 → List UInt8) (tx : Transaction) : List UInt8 :=
  Sha3_256 (Transaction.String tx).toUTF8.toList

/-- The Go type `Transactions`. -/
abbrev Transactions := List Transaction

/-- The `for i` loop of `Transactions.QuickInsert`.  The first list is
`transactions[i:]`, the second is `transactions[:i]`; the loop runs while
`i < len(transactions)-1`, that is while two elements are left.  The result is
`some list` when the loop returns `list`, and `none` when it ends. -/
def Transactions.quickInsertLoop (transaction : Transaction) :
    List Transaction → List Transaction → Option Transactions
  | a :: b :: rest, front =>
    if a.GetNonce < transaction.GetNonce ∧ transaction.GetNonce < b.GetNonce then
      some (((front ++ [a]) ++ [transaction]) ++ (b :: rest))
    else Transactions.quickInsertLoop transaction (b :: rest) (front ++ [a])
  | _, _ => none

/-- `Transactions.QuickInsert`. -/
def Transactions.QuickInsert (transactions : Transactions) (transaction : Transaction) :
    Transactions :=
  if transactions.length = 0 then transactions ++ [transaction]
  else
    match transactions.head?, transactions.getLast? with
    | some first, some last =>
      if transaction.GetNonce < first.GetNonce then [transaction] ++ transactions
      else if transaction.GetNonce > last.GetNonce then transactions ++ [transaction]
      else
        match Transactions.quickInsertLoop transaction transactions [] with
        | some list => list
        | none => transactions
    | _, _ => transactions

end userevent

/-! ## Theorems -/

namespace pool

open userevent

/-! ### `int64` arithmetic -/

theorem wrap64_isInt64 (x : Int) : isInt64 (wrap64 x) := by
  unfold isInt64 wrap64 int64Min int64Max
  omega

theorem wrap64_eq_self (x : Int) (h : isInt64 x) : wrap64 x = x := by
  unfold isInt64 int64Min int64Max at h
  unfold wrap64
  omega

/-! ### `NonceList.Insert` -/

theorem insert_nil (n : Int) : NonceList.Insert [] n = [n] := by
  simp [NonceList.Insert]

theorem insertLoop_none (n : Int) (l acc : List Int) (h : ∀ x ∈ l, x < n) :
    NonceList.insertLoop n l acc = none := by
  induction l generalizing acc with
  | nil => rfl
  | cons a l ih =>
    have ha : a < n := h a (List.mem_cons_self a l)
    simp only [NonceList.insertLoop, ha, if_true]
    exact ih _ (fun x hx => h x (List.mem_cons_of_mem a hx))

/-- Inserting a nonce that is greater than every element of a non-empty list
leaves the list as it was: the loop ends without assigning `*list`. -/
theorem insert_lost (n : Int) (l : List Int) (hl : l ≠ []) (h : ∀ x ∈ l, x < n) :
    NonceList.Insert l n = l := by
  have hlen : ¬ l.length = 0 := by
    intro h0
    exact hl (List.length_eq_zero.mp h0)
  simp only [NonceList.Insert, hlen, if_false, insertLoop_none n l [] h]

theorem insert_cons_of_le (n a : Int) (l : List Int) (h : n ≤ a) :
    NonceList.Insert (a :: l) n = n :: a :: l := by
  have ha : ¬ a < n := not_lt.mpr h
  simp [NonceList.Insert, NonceList.insertLoop, ha]

theorem insertLoop_mem (n : Int) (l acc r : List Int)
    (h : NonceList.insertLoop n l acc = some r) (x : Int) (hx : x ∈ r) :
    x ∈ acc ∨ x ∈ l ∨ x = n := by
  induction l generalizing acc with
  | nil => simp [NonceList.insertLoop] at h
  | cons a l ih =>
    by_cases ha : a < n
    · simp only [NonceList.insertLoop, ha, if_true] at h
      rcases ih _ h with h1 | h1 | h1
      · rcases List.mem_append.mp h1 with h2 | h2
        · exact Or.inl h2
        · right; left
          rw [List.mem_singleton.mp h2]
          exact List.mem_cons_self a l
      · right; left; exact List.mem_cons_of_mem a h1
      · right; right; exact h1
    · simp only [NonceList.insertLoop, ha, if_false, Option.some.injEq] at h
      subst h
      simp only [List.mem_append, List.mem_singleton] at hx
      rcases hx with (h1 | h1) | h1
      · exact Or.inl h1
      · exact Or.inr (Or.inr h1)
      · exact Or.inr (Or.inl h1)

/-- Whatever `Insert` leaves in the list was there before or is the nonce. -/
theorem insert_mem (n : Int) (l : List Int) (x : Int) (hx : x ∈ NonceList.Insert l n) :
    x ∈ l ∨ x = n := by
  unfold NonceList.Insert at hx
  by_cases hlen : l.length = 0
  · simp only [hlen, if_true, List.mem_append, List.mem_singleton] at hx
    exact hx
  · simp only [hlen, if_false] at hx
    cases hloop : NonceList.insertLoop n l [] with
    | none =>
      rw [hloop] at hx
      exact Or.inl hx
    | some r =>
      rw [hloop] at hx
      rcases insertLoop_mem n l [] r hloop x hx with h1 | h1 | h1
      · simp at h1
      · exact Or.inl h1
      · exact Or.inr h1

/-! ### `UserTxs.clearNonces` -/

/-- The loop of `clearNonces` keeps in the index only nonces above the watermark
that it was given. -/
theorem clearLoop_mem (w : Int) (l : List Int) (txs : TxMap) (acc : NonceList) (x : Int)
    (hx : x ∈ (UserTxs.clearLoop w l (txs, acc)).2) : x ∈ acc ∨ (x ∈ l ∧ w < x) := by
  induction l generalizing txs acc with
  | nil => exact Or.inl hx
  | cons a l ih =>
    by_cases ha : a > w
    · simp only [UserTxs.clearLoop, ha, if_true] at hx
      rcases ih _ _ hx with h1 | h1
      · rcases insert_mem a acc x h1 with h2 | h2
        · exact Or.inl h2
        · right
          subst h2
          exact ⟨List.mem_cons_self _ _, ha⟩
      · exact Or.inr ⟨List.mem_cons_of_mem a h1.1, h1.2⟩
    · simp only [UserTxs.clearLoop, ha, if_false] at hx
      rcases ih _ _ hx with h1 | h1
      · exact Or.inl h1
      · exact Or.inr ⟨List.mem_cons_of_mem a h1.1, h1.2⟩

/-- The loop of `clearNonces` deletes from the buffer map exactly the keys that
are in the index and not above the watermark. -/
theorem clearLoop_txs (w : Int) (l : List Int) (txs : TxMap) (acc : NonceList) (k : Int) :
    (UserTxs.clearLoop w l (txs, acc)).1 k = if k ∈ l ∧ k ≤ w then none else txs k := by
  induction l generalizing txs acc with
  | nil => simp [UserTxs.clearLoop]
  | cons a l ih =>
    by_cases ha : a > w
    · simp only [UserTxs.clearLoop, ha, if_true]
      rw [ih]
      by_cases hk : k ∈ l ∧ k ≤ w
      · have hk2 : k ∈ a :: l ∧ k ≤ w := ⟨List.mem_cons_of_mem a hk.1, hk.2⟩
        rw [if_pos hk, if_pos hk2]
      · have hk2 : ¬ (k ∈ a :: l ∧ k ≤ w) := by
          rintro ⟨h1, h2⟩
          rcases List.mem_cons.mp h1 with h3 | h3
          · omega
          · exact hk ⟨h3, h2⟩
        rw [if_neg hk, if_neg hk2]
    · simp only [UserTxs.clearLoop, ha, if_false]
      rw [ih]
      by_cases hk : k ∈ l ∧ k ≤ w
      · have hk2 : k ∈ a :: l ∧ k ≤ w := ⟨List.mem_cons_of_mem a hk.1, hk.2⟩
        rw [if_pos hk, if_pos hk2]
      · by_cases hka : k = a
        · have hk2 : k ∈ a :: l ∧ k ≤ w := by
            subst hka
            exact ⟨List.mem_cons_self _ _, by omega⟩
          rw [if_neg hk, if_pos hk2]
          simp [TxMap.delete, hka]
        · have hk2 : ¬ (k ∈ a :: l ∧ k ≤ w) := by
            rintro ⟨h1, h2⟩
            rcases List.mem_cons.mp h1 with h3 | h3
            · exact hka h3
            · exact hk ⟨h3, h2⟩
          rw [if_neg hk, if_neg hk2]
          simp [TxMap.delete, hka]

theorem clearNonces_mem (u : UserTxs) (x : Int) (hx : x ∈ (UserTxs.clearNonces u).Nonces) :
    x ∈ u.Nonces ∧ u.Nonce < x := by
  rcases clearLoop_mem u.Nonce u.Nonces u.Txs NewNonceList x hx with h | h
  · simp [NewNonceList] at h
  · exact h

theorem clearNonces_Txs (u : UserTxs) (k : Int) :
    (UserTxs.clearNonces u).Txs k = if k ∈ u.Nonces ∧ k ≤ u.Nonce then none else u.Txs k :=
  clearLoop_txs u.Nonce u.Nonces u.Txs NewNonceList k

/-! ### The scan loop of `UserTxs.Save` -/

theorem saveLoop_skip (txs : TxMap) (l : List Int) (list : List TxPtr) (last : Int)
    (h : ∀ x ∈ l, x ≠ wrap64 (last + 1)) :
    UserTxs.saveLoop txs l (list, last) = (list, last) := by
  induction l with
  | nil => rfl
  | cons a l ih =>
    have ha : a ≠ wrap64 (last + 1) := h a (List.mem_cons_self a l)
    simp only [UserTxs.saveLoop, ha, if_false]
    exact ih (fun x hx => h x (List.mem_cons_of_mem a hx))

/-! ### `UserTxs.Save` and `UsersTxs.SaveTx`, case by case -/

theorem save_not_ready (u : UserTxs) (tx : Transaction) (h1 : u.Txs tx.Nonce = none)
    (h2 : tx.Nonce ≠ wrap64 (u.Nonce + 1)) :
    UserTxs.Save u tx =
      ({ Txs := TxMap.set u.Txs tx.Nonce (some tx),
         Nonces := NonceList.Insert u.Nonces tx.Nonce, Nonce := u.Nonce }, [], false) := by
  unfold UserTxs.Save
  simp [h1, h2]

theorem save_ready (u : UserTxs) (tx : Transaction) (h1 : u.Txs tx.Nonce = none)
    (h2 : tx.Nonce = wrap64 (u.Nonce + 1)) :
    UserTxs.Save u tx =
      (UserTxs.clearNonces
        { Txs := TxMap.set u.Txs tx.Nonce (some tx),
          Nonces := NonceList.Insert u.Nonces tx.Nonce,
          Nonce := (UserTxs.saveLoop (TxMap.set u.Txs tx.Nonce (some tx))
            (NonceList.Insert u.Nonces tx.Nonce) ([some tx], tx.Nonce)).2 },
       (UserTxs.saveLoop (TxMap.set u.Txs tx.Nonce (some tx))
            (NonceList.Insert u.Nonces tx.Nonce) ([some tx], tx.Nonce)).1, true) := by
  unfold UserTxs.Save
  simp [h1, ← h2]

theorem saveTx_stale (m : UsersTxs) (tx : Transaction) (userNonce : Int)
    (h : tx.Nonce ≤ (UsersTxs.lookupOrNew m tx userNonce).Nonce) :
    UsersTxs.SaveTx m tx userNonce = (m, [], false) := by
  unfold UsersTxs.SaveTx
  simp [h]

theorem saveTx_fresh (m : UsersTxs) (tx : Transaction) (userNonce : Int)
    (h : (UsersTxs.lookupOrNew m tx userNonce).Nonce < tx.Nonce) :
    UsersTxs.SaveTx m tx userNonce =
      (UsersTxs.set m (UsersTxs.key tx) (UserTxs.Save (UsersTxs.lookupOrNew m tx userNonce) tx).1,
       (UserTxs.Save (UsersTxs.lookupOrNew m tx userNonce) tx).2.1,
       (UserTxs.Save (UsersTxs.lookupOrNew m tx userNonce) tx).2.2) := by
  unfold UsersTxs.SaveTx
  have h2 : ¬ (UsersTxs.lookupOrNew m tx userNonce).Nonce ≥ tx.Nonce := not_le.mpr h
  simp [h2]

theorem lookupOrNew_set (m : UsersTxs) (k : String) (u : UserTxs) (tx : Transaction)
    (userNonce : Int) (hk : UsersTxs.key tx = k) :
    UsersTxs.lookupOrNew (UsersTxs.set m k u) tx userNonce = u := by
  unfold UsersTxs.lookupOrNew UsersTxs.set
  simp [hk]

theorem set_m_self (m : UsersTxs) (k : String) (u : UserTxs) :
    (UsersTxs.set m k u).m k = some u := by
  simp [UsersTxs.set]

theorem lookupOrNew_new (tx : Transaction) (userNonce : Int) :
    UsersTxs.lookupOrNew NewUsersTxs tx userNonce = NewUserTxs userNonce := rfl

theorem insert_cons_of_forall_le (n : Int) (l : List Int) (h : ∀ x ∈ l, n ≤ x) :
    NonceList.Insert l n = n :: l := by
  cases l with
  | nil => exact insert_nil n
  | cons a l => exact insert_cons_of_le n a l (h a (List.mem_cons_self a l))

/-! ### The invariant of the queues of a reachable registry -/

theorem inv_new (n : Int) (h : isInt64 n) : UserTxs.Inv (NewUserTxs n) := by
  refine ⟨h, ?_⟩
  intro x hx
  simp [NewUserTxs, NewNonceList] at hx

theorem inv_clearNonces (u : UserTxs) (hw : isInt64 u.Nonce)
    (h : ∀ n ∈ u.Nonces, ∃ t : Transaction, u.Txs n = some t ∧ t.Nonce = n) :
    UserTxs.Inv (UserTxs.clearNonces u) := by
  refine ⟨hw, ?_⟩
  intro n hn
  obtain ⟨h1, h2⟩ := clearNonces_mem u n hn
  refine ⟨h2, ?_⟩
  rw [clearNonces_Txs, if_neg (by rintro ⟨_, h3⟩; omega)]
  exact h n h1

theorem saveLoop_isInt64 (txs : TxMap) (l : List Int) (list : List TxPtr) (last : Int)
    (h : isInt64 last) : isInt64 (UserTxs.saveLoop txs l (list, last)).2 := by
  induction l generalizing list last with
  | nil => exact h
  | cons a l ih =>
    by_cases ha : a = wrap64 (last + 1)
    · simp only [UserTxs.saveLoop, ha, if_true]
      exact ih _ _ (wrap64_isInt64 _)
    · simp only [UserTxs.saveLoop, ha, if_false]
      exact ih _ _ h

theorem inv_save (u : UserTxs) (tx : Transaction) (hu : UserTxs.Inv u)
    (hlt : u.Nonce < tx.Nonce) : UserTxs.Inv (UserTxs.Save u tx).1 := by
  by_cases hdup : u.Txs tx.Nonce = none
  · have hpair : ∀ n ∈ NonceList.Insert u.Nonces tx.Nonce,
        ∃ t : Transaction, TxMap.set u.Txs tx.Nonce (some tx) n = some t ∧ t.Nonce = n := by
      intro n hn
      by_cases hn2 : n = tx.Nonce
      · exact ⟨tx, by simp [TxMap.set, hn2], hn2.symm⟩
      · rcases insert_mem _ _ _ hn with h | h
        · obtain ⟨t, ht1, ht2⟩ := (hu.2 n h).2
          exact ⟨t, by simp [TxMap.set, hn2, ht1], ht2⟩
        · exact absurd h hn2
    by_cases hnext : tx.Nonce = wrap64 (u.Nonce + 1)
    · rw [save_ready u tx hdup hnext]
      apply inv_clearNonces
      · apply saveLoop_isInt64
        rw [hnext]
        exact wrap64_isInt64 _
      · exact hpair
    · rw [save_not_ready u tx hdup hnext]
      refine ⟨hu.1, ?_⟩
      intro n hn
      refine ⟨?_, hpair n hn⟩
      rcases insert_mem _ _ _ hn with h | h
      · exact (hu.2 n h).1
      · rw [h]; exact hlt
  · have hs : UserTxs.Save u tx = (u, [], false) := by
      unfold UserTxs.Save
      rw [if_pos hdup]
    rw [hs]
    exact hu

theorem inv_lookupOrNew (m : UsersTxs) (tx : Transaction) (userNonce : Int)
    (hm : ∀ k u, m.m k = some u → UserTxs.Inv u) (hn : isInt64 userNonce) :
    UserTxs.Inv (UsersTxs.lookupOrNew m tx userNonce) := by
  unfold UsersTxs.lookupOrNew
  cases hq : m.m (UsersTxs.key tx) with
  | none => exact inv_new userNonce hn
  | some u => exact hm _ u hq

theorem inv_set (m : UsersTxs) (k : String) (u : UserTxs)
    (hm : ∀ k u, m.m k = some u → UserTxs.Inv u) (hu : UserTxs.Inv u) :
    ∀ j v, (UsersTxs.set m k u).m j = some v → UserTxs.Inv v := by
  intro j v hv
  unfold UsersTxs.set at hv
  by_cases hj : j = k
  · simp only [hj, if_true, Option.some.injEq] at hv
    rw [← hv]; exact hu
  · simp only [hj, if_false] at hv
    exact hm j v hv

theorem inv_saveTx (m : UsersTxs) (tx : Transaction) (userNonce : Int)
    (hm : ∀ k u, m.m k = some u → UserTxs.Inv u) (hn : isInt64 userNonce) :
    ∀ k u, (UsersTxs.SaveTx m tx userNonce).1.m k = some u → UserTxs.Inv u := by
  by_cases hst : tx.Nonce ≤ (UsersTxs.lookupOrNew m tx userNonce).Nonce
  · rw [saveTx_stale m tx userNonce hst]
    exact hm
  · rw [saveTx_fresh m tx userNonce (not_le.mp hst)]
    exact inv_set m _ _ hm
      (inv_save _ tx (inv_lookupOrNew m tx userNonce hm hn) (not_le.mp hst))

theorem inv_notify (m : UsersTxs) (tx : Transaction)
    (hm : ∀ k u, m.m k = some u → UserTxs.Inv u) (hn : isInt64 tx.Nonce) :
    ∀ k u, (UsersTxs.Notify m tx).m k = some u → UserTxs.Inv u := by
  unfold UsersTxs.Notify
  cases hq : m.m (UsersTxs.key tx) with
  | none => exact hm
  | some u =>
    apply inv_set m _ _ hm
    apply inv_clearNonces
    · exact hn
    · intro n hx
      exact ((hm _ u hq).2 n hx).2

/-- Every queue of a reachable registry satisfies the invariant. -/
theorem reachable_inv (m : UsersTxs) (h : Reachable m) :
    ∀ k u, m.m k = some u → UserTxs.Inv u := by
  induction h with
  | init =>
    intro k u hk
    simp [NewUsersTxs] at hk
  | saveTx m tx userNonce _ _ hn ih => exact inv_saveTx m tx userNonce ih hn
  | notify m tx _ hn ih => exact inv_notify m tx ih hn

/-! ### The run released by `UserTxs.Save` -/

/-- The scan loop only appends to `list`. -/
theorem saveLoop_extends (txs : TxMap) (l : List Int) (list : List TxPtr) (last : Int) :
    ∃ ext : List TxPtr, (UserTxs.saveLoop txs l (list, last)).1 = list ++ ext := by
  induction l generalizing list last with
  | nil => exact ⟨[], by simp [UserTxs.saveLoop]⟩
  | cons a l ih =>
    by_cases ha : a = wrap64 (last + 1)
    · simp only [UserTxs.saveLoop, ha, if_true]
      obtain ⟨ext, he⟩ := ih (list ++ [txs (wrap64 (last + 1))]) (wrap64 (last + 1))
      exact ⟨txs (wrap64 (last + 1)) :: ext, by rw [he]; simp⟩
    · simp only [UserTxs.saveLoop, ha, if_false]
      exact ih list last

/-- The scan loop of `Save`, started on a run whose nonces are `base, base+1, ...`
up to `lastNonce`, over an index whose nonces are all above an `int64` watermark
and keys of the buffer under their own nonce: the run it returns still has the
nonces `base, base+1, ...` up to the returned `lastNonce`, and every element
after the first is the transaction buffered at its nonce. -/
theorem saveLoop_run (txs : TxMap) (w0 base : Int) (l : List Int) (list : List TxPtr)
    (last : Int) (hw0 : int64Min ≤ w0)
    (hl : ∀ n ∈ l, w0 < n ∧ ∃ t : Transaction, txs n = some t ∧ t.Nonce = n)
    (hlast : isInt64 last) (hlen : last + 1 = base + list.length)
    (hlist : ∀ i : Nat, i < list.length → ∃ t : Transaction,
      list[i]? = some (some t) ∧ t.Nonce = base + i ∧ (0 < i → txs (base + i) = some t)) :
    (UserTxs.saveLoop txs l (list, last)).2 + 1
        = base + (UserTxs.saveLoop txs l (list, last)).1.length ∧
      ∀ i : Nat, i < (UserTxs.saveLoop txs l (list, last)).1.length → ∃ t : Transaction,
        (UserTxs.saveLoop txs l (list, last)).1[i]? = some (some t) ∧ t.Nonce = base + i ∧
          (0 < i → txs (base + i) = some t) := by
  induction l generalizing list last with
  | nil => exact ⟨hlen, hlist⟩
  | cons a l ih =>
    have hl2 : ∀ n ∈ l, w0 < n ∧ ∃ t : Transaction, txs n = some t ∧ t.Nonce = n :=
      fun n hn => hl n (List.mem_cons_of_mem a hn)
    by_cases ha : a = wrap64 (last + 1)
    · simp only [UserTxs.saveLoop, ha, if_true]
      obtain ⟨hgt, t, ht1, ht2⟩ := hl a (List.mem_cons_self a l)
      have hwrap : wrap64 (last + 1) = last + 1 := by
        have h1 := hlast.1
        have h2 := hlast.2
        unfold int64Min at hw0 h1
        unfold int64Max at h2
        rw [ha] at hgt
        unfold wrap64 at hgt ⊢
        omega
      rw [ha] at ht1 ht2
      apply ih _ _ hl2 (wrap64_isInt64 _)
      · rw [hwrap, List.length_append, List.length_singleton]
        push_cast
        omega
      · intro i hi
        rw [List.length_append, List.length_singleton] at hi
        by_cases hi2 : i < list.length
        · obtain ⟨t2, h1, h2, h3⟩ := hlist i hi2
          exact ⟨t2, by rw [List.getElem?_append_left hi2]; exact h1, h2, h3⟩
        · have hi3 : i = list.length := by omega
          have hb : base + (i : Int) = last + 1 := by rw [hi3]; omega
          refine ⟨t, ?_, ?_, ?_⟩
          · rw [hi3, List.getElem?_append_right (le_refl _)]
            simp [ht1]
          · rw [ht2, hwrap, hb]
          · intro _
            rw [hb, ← hwrap]
            exact ht1
    · simp only [UserTxs.saveLoop, ha, if_false]
      exact ih _ _ hl2 hlast hlen hlist

theorem insert_set_pair (u : UserTxs) (tx : Transaction) (hu : UserTxs.Inv u)
    (hlt : u.Nonce < tx.Nonce) :
    ∀ n ∈ NonceList.Insert u.Nonces tx.Nonce, u.Nonce < n ∧
      ∃ t : Transaction, TxMap.set u.Txs tx.Nonce (some tx) n = some t ∧ t.Nonce = n := by
  intro n hn
  by_cases hn2 : n = tx.Nonce
  · exact ⟨by rw [hn2]; exact hlt, tx, by simp [TxMap.set, hn2], hn2.symm⟩
  · rcases insert_mem _ _ _ hn with h | h
    · obtain ⟨hgt, t, ht1, ht2⟩ := hu.2 n h
      exact ⟨hgt, t, by simp [TxMap.set, hn2, ht1], ht2⟩
    · exact absurd h hn2

/-! ## The claims -/

/-- C1 (failing input): watermark 0 and the nonces 1, 2, 3 submitted in the order
2, 3, 1 to a fresh registry.  The first two calls return not ready and the third
returns the run `[tx 1, tx 2]`, so the transaction with nonce 3 is in no run; the
watermark ends at 2, not 3; the transaction with nonce 3 stays in the buffer map
while the pending index is empty, and submitting it again is rejected as a
duplicate. -/
theorem C1_order_2_3_1_releases_only_1_2 :
    (UsersTxs.SaveTx NewUsersTxs (sampleTx 2) 0).2 = ([], false) ∧
    (UsersTxs.SaveTx (UsersTxs.run NewUsersTxs [Call.saveTx (sampleTx 2) 0])
      (sampleTx 3) 0).2 = ([], false) ∧
    (UsersTxs.SaveTx (UsersTxs.run NewUsersTxs
        [Call.saveTx (sampleTx 2) 0, Call.saveTx (sampleTx 3) 0])
      (sampleTx 1) 0).2 = ([some (sampleTx 1), some (sampleTx 2)], true) ∧
    ((UsersTxs.run NewUsersTxs
        [Call.saveTx (sampleTx 2) 0, Call.saveTx (sampleTx 3) 0, Call.saveTx (sampleTx 1) 0]).m
      (UsersTxs.key (sampleTx 1))).map
        (fun userTxs => (userTxs.Nonce, userTxs.Nonces, userTxs.Txs 3))
      = some (2, [], some (sampleTx 3)) ∧
    (UsersTxs.SaveTx (UsersTxs.run NewUsersTxs
        [Call.saveTx (sampleTx 2) 0, Call.saveTx (sampleTx 3) 0, Call.saveTx (sampleTx 1) 0])
      (sampleTx 3) 0).2 = ([], false) := by
  decide

/-- C2 (counterexample): on a fresh registry with watermark `w = 0`, the first
submission, nonce `w+1 = 1`, is already ready with the run `[tx 1]`; the third
submission returns the run `[tx 2, tx 3]`, not `[tx 1, tx 2, tx 3]`. -/
theorem C2_gap_fill_counterexample :
    ¬ ((UsersTxs.SaveTx NewUsersTxs (sampleTx 1) 0).2 = ([], false) ∧
       (UsersTxs.SaveTx (UsersTxs.run NewUsersTxs [Call.saveTx (sampleTx 1) 0])
         (sampleTx 3) 0).2 = ([], false) ∧
       (UsersTxs.SaveTx (UsersTxs.run NewUsersTxs
           [Call.saveTx (sampleTx 1) 0, Call.saveTx (sampleTx 3) 0])
         (sampleTx 2) 0).2
         = ([some (sampleTx 1), some (sampleTx 2), some (sampleTx 3)], true) ∧
       ((UsersTxs.run NewUsersTxs
           [Call.saveTx (sampleTx 1) 0, Call.saveTx (sampleTx 3) 0, Call.saveTx (sampleTx 2) 0]).m
         (UsersTxs.key (sampleTx 1))).map (fun userTxs => userTxs.Nonce) = some 3) := by
  decide

/-- C2 (amended): for an account whose watermark is `w`, with nothing buffered at
`w+1`, `w+2`, `w+3` and no pending nonce up to `w+4` (a new account seen with
`userNonce = w` is one), submitting the nonces `w+1`, `w+3`, `w+2` in that order
through `SaveTx` yields ready with the run `[w+1]` after the first submission, not
ready after the second, and ready with the run `[w+2, w+3]` after the third; the
watermark is then `w+3`.  (`w` and `w+3` are `int64` values.) -/
theorem C2_gap_fill_amended (m : UsersTxs) (w : Int) (tx1 tx3 tx2 : Transaction)
    (userNonce1 userNonce2 userNonce3 : Int)
    (hw : isInt64 w) (hw3 : isInt64 (w + 3))
    (hNonce : (UsersTxs.lookupOrNew m tx1 userNonce1).Nonce = w)
    (hT1 : (UsersTxs.lookupOrNew m tx1 userNonce1).Txs (w + 1) = none)
    (hT2 : (UsersTxs.lookupOrNew m tx1 userNonce1).Txs (w + 2) = none)
    (hT3 : (UsersTxs.lookupOrNew m tx1 userNonce1).Txs (w + 3) = none)
    (hN : ∀ n ∈ (UsersTxs.lookupOrNew m tx1 userNonce1).Nonces, w + 4 < n)
    (h1 : tx1.Nonce = w + 1) (h3 : tx3.Nonce = w + 3) (h2 : tx2.Nonce = w + 2)
    (hf3 : tx3.From = tx1.From) (hf2 : tx2.From = tx1.From) :
    (UsersTxs.SaveTx m tx1 userNonce1).2 = ([some tx1], true) ∧
    (UsersTxs.SaveTx (UsersTxs.run m [Call.saveTx tx1 userNonce1]) tx3 userNonce2).2
      = ([], false) ∧
    (UsersTxs.SaveTx (UsersTxs.run m [Call.saveTx tx1 userNonce1, Call.saveTx tx3 userNonce2])
      tx2 userNonce3).2 = ([some tx2, some tx3], true) ∧
    ((UsersTxs.run m [Call.saveTx tx1 userNonce1, Call.saveTx tx3 userNonce2,
        Call.saveTx tx2 userNonce3]).m (UsersTxs.key tx1)).map (fun userTxs => userTxs.Nonce)
      = some (w + 3) := by
  suffices key :
      (let r1 := UsersTxs.SaveTx m tx1 userNonce1
       let r2 := UsersTxs.SaveTx r1.1 tx3 userNonce2
       let r3 := UsersTxs.SaveTx r2.1 tx2 userNonce3
       r1.2 = ([some tx1], true) ∧ r2.2 = ([], false) ∧
       r3.2 = ([some tx2, some tx3], true) ∧
       (r3.1.m (UsersTxs.key tx1)).map (fun userTxs => userTxs.Nonce) = some (w + 3)) from key
  intro r1 r2 r3
  have hk3 : UsersTxs.key tx3 = UsersTxs.key tx1 := by unfold UsersTxs.key; rw [hf3]
  have hk2 : UsersTxs.key tx2 = UsersTxs.key tx1 := by unfold UsersTxs.key; rw [hf2]
  have hb : int64Min ≤ w ∧ w + 3 ≤ int64Max := ⟨hw.1, hw3.2⟩
  unfold int64Min int64Max at hb
  have hw1 : wrap64 (w + 1) = w + 1 := by unfold wrap64; omega
  have hw2 : wrap64 (w + 1 + 1) = w + 2 := by unfold wrap64; omega
  have hw3b : wrap64 (w + 2 + 1) = w + 3 := by unfold wrap64; omega
  have hw4 : wrap64 (w + 3 + 1) ≤ w + 4 := by unfold wrap64; omega
  generalize hu0 : UsersTxs.lookupOrNew m tx1 userNonce1 = u0 at hNonce hT1 hT2 hT3 hN
  -- first call: `w+1` is the next expected nonce and is released at once
  obtain ⟨u1, e1, hu1N, hu1T2, hu1T3, hu1L⟩ : ∃ u1 : UserTxs,
      r1 = (UsersTxs.set m (UsersTxs.key tx1) u1, [some tx1], true) ∧ u1.Nonce = w + 1 ∧
      u1.Txs (w + 2) = none ∧ u1.Txs (w + 3) = none ∧ ∀ n ∈ u1.Nonces, w + 4 < n := by
    have hs := save_ready u0 tx1 (by rw [h1]; exact hT1) (by rw [h1, hNonce]; exact hw1.symm)
    have hins : NonceList.Insert u0.Nonces tx1.Nonce = (w + 1) :: u0.Nonces := by
      rw [h1]
      exact insert_cons_of_forall_le _ _ (fun x hx => by have := hN x hx; omega)
    have hloop : UserTxs.saveLoop (TxMap.set u0.Txs tx1.Nonce (some tx1))
        ((w + 1) :: u0.Nonces) ([some tx1], tx1.Nonce) = ([some tx1], tx1.Nonce) := by
      apply saveLoop_skip
      intro x hx
      rw [h1, hw2]
      rcases List.mem_cons.mp hx with h | h
      · omega
      · have := hN x h; omega
    rw [hins, hloop] at hs
    refine ⟨(UserTxs.Save u0 tx1).1, ?_, ?_, ?_, ?_, ?_⟩
    · show UsersTxs.SaveTx m tx1 userNonce1 = _
      rw [saveTx_fresh _ _ _ (by rw [hu0, hNonce, h1]; omega), hu0, hs]
    · rw [hs]; exact h1
    · rw [hs]
      show (UserTxs.clearNonces _).Txs (w + 2) = none
      rw [clearNonces_Txs]
      split_ifs
      · rfl
      · simp only [TxMap.set, h1]
        rw [if_neg (by omega)]
        exact hT2
    · rw [hs]
      show (UserTxs.clearNonces _).Txs (w + 3) = none
      rw [clearNonces_Txs]
      split_ifs
      · rfl
      · simp only [TxMap.set, h1]
        rw [if_neg (by omega)]
        exact hT3
    · intro n hn
      rw [hs] at hn
      have h := (clearNonces_mem _ n hn).1
      rcases List.mem_cons.mp h with h | h
      · have := (clearNonces_mem _ n hn).2
        simp only [h1] at this
        omega
      · exact hN n h
  -- second call: `w+3` is buffered behind the hole at `w+2`
  obtain ⟨u2, e2, hu2N, hu2T2, hu2T3, hu2L⟩ : ∃ u2 : UserTxs,
      r2 = (UsersTxs.set r1.1 (UsersTxs.key tx1) u2, [], false) ∧ u2.Nonce = w + 1 ∧
      u2.Txs (w + 2) = none ∧ u2.Txs (w + 3) = some tx3 ∧
      ∃ l : List Int, u2.Nonces = (w + 3) :: l ∧ ∀ n ∈ l, w + 4 < n := by
    have hl : UsersTxs.lookupOrNew r1.1 tx3 userNonce2 = u1 := by
      rw [e1]; exact lookupOrNew_set _ _ _ _ _ hk3
    have hs := save_not_ready u1 tx3 (by rw [h3]; exact hu1T3)
      (by rw [h3, hu1N, hw2]; omega)
    refine ⟨(UserTxs.Save u1 tx3).1, ?_, ?_, ?_, ?_, ?_⟩
    · show UsersTxs.SaveTx r1.1 tx3 userNonce2 = _
      rw [saveTx_fresh _ _ _ (by rw [hl, hu1N, h3]; omega), hl, hs, hk3]
    · rw [hs]; exact hu1N
    · rw [hs]
      simp only [TxMap.set, h3]
      rw [if_neg (by omega)]
      exact hu1T2
    · rw [hs]
      simp only [TxMap.set, h3, if_true]
    · refine ⟨u1.Nonces, ?_, hu1L⟩
      rw [hs, h3]
      exact insert_cons_of_forall_le _ _ (fun x hx => by have := hu1L x hx; omega)
  obtain ⟨l2, hl2, hl2L⟩ := hu2L
  -- third call: `w+2` closes the hole and the run `[w+2, w+3]` is released
  have hl : UsersTxs.lookupOrNew r2.1 tx2 userNonce3 = u2 := by
    rw [e2]; exact lookupOrNew_set _ _ _ _ _ hk2
  have hs := save_ready u2 tx2 (by rw [h2]; exact hu2T2) (by rw [h2, hu2N]; exact hw2.symm)
  have hins : NonceList.Insert u2.Nonces tx2.Nonce = (w + 2) :: (w + 3) :: l2 := by
    rw [h2, hl2]
    exact insert_cons_of_le _ _ _ (by omega)
  have hloop : UserTxs.saveLoop (TxMap.set u2.Txs tx2.Nonce (some tx2))
      ((w + 2) :: (w + 3) :: l2) ([some tx2], tx2.Nonce) = ([some tx2, some tx3], w + 3) := by
    have hne : ¬ (w + 2 = w + 3) := by omega
    have hne2 : ¬ (w + 3 = w + 2) := by omega
    simp only [UserTxs.saveLoop, h2, hw3b, hne, if_false, if_true, TxMap.set, hne2,
      List.singleton_append, hu2T3]
    apply saveLoop_skip
    intro x hx
    have := hl2L x hx
    omega
  rw [hins, hloop] at hs
  have e3 : r3 = (UsersTxs.set r2.1 (UsersTxs.key tx1) (UserTxs.Save u2 tx2).1,
      [some tx2, some tx3], true) := by
    show UsersTxs.SaveTx r2.1 tx2 userNonce3 = _
    rw [saveTx_fresh _ _ _ (by rw [hl, hu2N, h2]; omega), hl, hk2]
    rw [hs]
  refine ⟨?_, ?_, ?_, ?_⟩
  · rw [e1]
  · rw [e2]
  · rw [e3]
  · rw [e3, set_m_self, hs]
    rfl

/-- Witness of C2 (amended) on a fresh registry with `w = 0`. -/
theorem C2_gap_fill_amended_witness :
    (isInt64 0 ∧ isInt64 (0 + 3) ∧
      (UsersTxs.lookupOrNew NewUsersTxs (sampleTx 1) 0).Nonce = 0) ∧
    ((UsersTxs.SaveTx NewUsersTxs (sampleTx 1) 0).2 = ([some (sampleTx 1)], true) ∧
     (UsersTxs.SaveTx (UsersTxs.run NewUsersTxs [Call.saveTx (sampleTx 1) 0])
       (sampleTx 3) 0).2 = ([], false) ∧
     (UsersTxs.SaveTx (UsersTxs.run NewUsersTxs
         [Call.saveTx (sampleTx 1) 0, Call.saveTx (sampleTx 3) 0])
       (sampleTx 2) 0).2 = ([some (sampleTx 2), some (sampleTx 3)], true) ∧
     ((UsersTxs.run NewUsersTxs
         [Call.saveTx (sampleTx 1) 0, Call.saveTx (sampleTx 3) 0, Call.saveTx (sampleTx 2) 0]).m
       (UsersTxs.key (sampleTx 1))).map (fun userTxs => userTxs.Nonce) = some (0 + 3)) :=
  ⟨by decide,
   C2_gap_fill_amended NewUsersTxs 0 (sampleTx 1) (sampleTx 3) (sampleTx 2) 0 0 0
     (by decide) (by decide) rfl rfl rfl rfl
     (fun n hn => by simp [UsersTxs.lookupOrNew, NewUsersTxs, NewUserTxs, NewNonceList] at hn)
     rfl rfl rfl rfl rfl⟩

/-- C3: on a fresh registry, `SaveTx` of nonce `w+2` with `userNonce = w` is not
ready; `SaveTx` of nonce `w+1` for the same account is then ready with the run
`[tx(w+1), tx(w+2)]` and leaves the queue with watermark `w+2`, an empty buffer
map and an empty pending index; a further `SaveTx` of nonce `w+1` is not ready
and leaves the registry as it was.  (`w` and `w+2` are `int64` values.) -/
theorem C3_end_to_end_scenario (w : Int) (tx7 tx6 tx6b : Transaction) (userNonce2 userNonce3 : Int)
    (hw : isInt64 w) (hw2 : isInt64 (w + 2))
    (h7 : tx7.Nonce = w + 2) (h6 : tx6.Nonce = w + 1) (h6b : tx6b.Nonce = w + 1)
    (hf : tx6.From = tx7.From) (hfb : tx6b.From = tx7.From) :
    (UsersTxs.SaveTx NewUsersTxs tx7 w).2 = ([], false) ∧
    (UsersTxs.SaveTx (UsersTxs.run NewUsersTxs [Call.saveTx tx7 w]) tx6 userNonce2).2
      = ([some tx6, some tx7], true) ∧
    (UsersTxs.run NewUsersTxs [Call.saveTx tx7 w, Call.saveTx tx6 userNonce2]).m
      (UsersTxs.key tx7) = some (NewUserTxs (w + 2)) ∧
    (UsersTxs.SaveTx (UsersTxs.run NewUsersTxs [Call.saveTx tx7 w, Call.saveTx tx6 userNonce2])
      tx6b userNonce3).2 = ([], false) ∧
    UsersTxs.run NewUsersTxs
        [Call.saveTx tx7 w, Call.saveTx tx6 userNonce2, Call.saveTx tx6b userNonce3]
      = UsersTxs.run NewUsersTxs [Call.saveTx tx7 w, Call.saveTx tx6 userNonce2] := by
  suffices key :
      (let r1 := UsersTxs.SaveTx NewUsersTxs tx7 w
       let r2 := UsersTxs.SaveTx r1.1 tx6 userNonce2
       let r3 := UsersTxs.SaveTx r2.1 tx6b userNonce3
       r1.2 = ([], false) ∧ r2.2 = ([some tx6, some tx7], true) ∧
       r2.1.m (UsersTxs.key tx7) = some (NewUserTxs (w + 2)) ∧
       r3.2 = ([], false) ∧ r3.1 = r2.1) from key
  intro r1 r2 r3
  have hk6 : UsersTxs.key tx6 = UsersTxs.key tx7 := by unfold UsersTxs.key; rw [hf]
  have hk6b : UsersTxs.key tx6b = UsersTxs.key tx7 := by unfold UsersTxs.key; rw [hfb]
  have hw1 : wrap64 (w + 1) = w + 1 := by
    apply wrap64_eq_self
    unfold isInt64 int64Min int64Max at *
    omega
  have hw2b : wrap64 (w + 1 + 1) = w + 2 := by
    rw [show w + 1 + 1 = w + 2 by ring]
    exact wrap64_eq_self _ hw2
  -- first call: buffered, not ready
  have e1 : r1 = (UsersTxs.set NewUsersTxs (UsersTxs.key tx7)
      { Txs := TxMap.set TxMap.empty (w + 2) (some tx7), Nonces := [w + 2], Nonce := w },
      [], false) := by
    show UsersTxs.SaveTx NewUsersTxs tx7 w = _
    rw [saveTx_fresh _ _ _ (by rw [lookupOrNew_new, h7]; show w < w + 2; omega),
      lookupOrNew_new,
      save_not_ready _ _ (by rfl) (by rw [h7]; show w + 2 ≠ wrap64 (w + 1); rw [hw1]; omega)]
    simp [NewUserTxs, NewNonceList, insert_nil, h7]
  -- second call: the gap is closed
  have e2 : r2 = (UsersTxs.set r1.1 (UsersTxs.key tx7) (NewUserTxs (w + 2)),
      [some tx6, some tx7], true) := by
    show UsersTxs.SaveTx r1.1 tx6 userNonce2 = _
    rw [e1]
    have hl : UsersTxs.lookupOrNew (UsersTxs.set NewUsersTxs (UsersTxs.key tx7)
        { Txs := TxMap.set TxMap.empty (w + 2) (some tx7), Nonces := [w + 2], Nonce := w })
        tx6 userNonce2 =
        { Txs := TxMap.set TxMap.empty (w + 2) (some tx7), Nonces := [w + 2], Nonce := w } :=
      lookupOrNew_set _ _ _ _ _ hk6
    rw [saveTx_fresh _ _ _ (by rw [hl, h6]; show w < w + 1; omega), hl,
      save_ready _ _ (by simp [TxMap.set, TxMap.empty, h6]) (by rw [h6]; exact hw1.symm)]
    have hins : NonceList.Insert [w + 2] (w + 1) = [w + 1, w + 2] :=
      insert_cons_of_le (w + 1) (w + 2) [] (by omega)
    have hloop : UserTxs.saveLoop (TxMap.set (TxMap.set TxMap.empty (w + 2) (some tx7))
        (w + 1) (some tx6)) [w + 1, w + 2] ([some tx6], w + 1) =
        ([some tx6, some tx7], w + 2) := by
      simp [UserTxs.saveLoop, hw2b, TxMap.set]
    simp only [h6, hins, hloop, hk6]
    have hclear : UserTxs.clearNonces
        { Txs := TxMap.set (TxMap.set TxMap.empty (w + 2) (some tx7)) (w + 1) (some tx6),
          Nonces := [w + 1, w + 2], Nonce := w + 2 } = NewUserTxs (w + 2) := by
      unfold UserTxs.clearNonces NewUserTxs
      have hc : UserTxs.clearLoop (w + 2) [w + 1, w + 2]
          (TxMap.set (TxMap.set TxMap.empty (w + 2) (some tx7)) (w + 1) (some tx6),
            NewNonceList) = (TxMap.empty, NewNonceList) := by
        simp only [UserTxs.clearLoop, gt_iff_lt, add_lt_add_iff_left, lt_self_iff_false,
          if_false, show ¬ ((2 : Int) < 1) by decide]
        congr 1
        funext k
        simp only [TxMap.delete, TxMap.set, TxMap.empty]
        split_ifs <;> rfl
      simp only [hc]
    rw [hclear]
  -- third call: stale
  have e3 : r3 = (r2.1, [], false) := by
    show UsersTxs.SaveTx r2.1 tx6b userNonce3 = _
    apply saveTx_stale
    rw [e2, lookupOrNew_set _ _ _ _ _ hk6b, h6b]
    show w + 1 ≤ w + 2
    omega
  refine ⟨?_, ?_, ?_, ?_, ?_⟩
  · rw [e1]
  · rw [e2]
  · rw [e2]; exact set_m_self _ _ _
  · rw [e3]
  · rw [e3]

/-- Witness of C3 at the case `w = 5` of the specification. -/
theorem C3_end_to_end_scenario_witness :
    (isInt64 5 ∧ isInt64 (5 + 2)) ∧
    ((UsersTxs.SaveTx NewUsersTxs (sampleTx 7) 5).2 = ([], false) ∧
     (UsersTxs.SaveTx (UsersTxs.run NewUsersTxs [Call.saveTx (sampleTx 7) 5]) (sampleTx 6) 5).2
       = ([some (sampleTx 6), some (sampleTx 7)], true) ∧
     (UsersTxs.run NewUsersTxs [Call.saveTx (sampleTx 7) 5, Call.saveTx (sampleTx 6) 5]).m
       (UsersTxs.key (sampleTx 7)) = some (NewUserTxs (5 + 2)) ∧
     (UsersTxs.SaveTx (UsersTxs.run NewUsersTxs
         [Call.saveTx (sampleTx 7) 5, Call.saveTx (sampleTx 6) 5])
       (sampleTx 6) 5).2 = ([], false) ∧
     UsersTxs.run NewUsersTxs
         [Call.saveTx (sampleTx 7) 5, Call.saveTx (sampleTx 6) 5, Call.saveTx (sampleTx 6) 5]
       = UsersTxs.run NewUsersTxs [Call.saveTx (sampleTx 7) 5, Call.saveTx (sampleTx 6) 5]) :=
  ⟨by decide,
   C3_end_to_end_scenario 5 (sampleTx 7) (sampleTx 6) (sampleTx 6) 5 5
     (by decide) (by decide) rfl rfl rfl rfl rfl⟩

/-- C4: `UserTxs.Save(tx)` on a state that already buffers a transaction at
`tx.Nonce` returns `(nil, false)` and leaves the buffer map, the pending index
and the watermark as they were, whatever the other fields of `tx` are; the value
stored at `tx.Nonce` is still the one buffered first. -/
theorem C4_save_duplicate_rejected (sorted : UserTxs) (tx : Transaction)
    (h : sorted.Txs tx.Nonce ≠ none) :
    UserTxs.Save sorted tx = (sorted, [], false) ∧
      (UserTxs.Save sorted tx).1.Txs tx.Nonce = sorted.Txs tx.Nonce := by
  have hs : UserTxs.Save sorted tx = (sorted, [], false) := by
    unfold UserTxs.Save
    rw [if_pos h]
  exact ⟨hs, by rw [hs]⟩

/-- Witness of C4: a second transaction with nonce 2 and another payload. -/
theorem C4_save_duplicate_rejected_witness :
    (UserTxs.Save (NewUserTxs 0) (sampleTx 2)).1.Txs
        (NewTransaction [0xab] [0xef] 9 9 9 2 "other" "").Nonce ≠ none ∧
      (UserTxs.Save (UserTxs.Save (NewUserTxs 0) (sampleTx 2)).1
          (NewTransaction [0xab] [0xef] 9 9 9 2 "other" "")
        = ((UserTxs.Save (NewUserTxs 0) (sampleTx 2)).1, [], false) ∧
       (UserTxs.Save (UserTxs.Save (NewUserTxs 0) (sampleTx 2)).1
          (NewTransaction [0xab] [0xef] 9 9 9 2 "other" "")).1.Txs
            (NewTransaction [0xab] [0xef] 9 9 9 2 "other" "").Nonce
        = (UserTxs.Save (NewUserTxs 0) (sampleTx 2)).1.Txs
            (NewTransaction [0xab] [0xef] 9 9 9 2 "other" "").Nonce) :=
  ⟨by decide, C4_save_duplicate_rejected _ _ (by decide)⟩

/-- C5: when `tx.Nonce` is not above the watermark of the account of `tx` (the
`Nonce` of its queue, or `userNonce` when it has no queue), `SaveTx` returns
`(nil, false)` and the registry is the one it was given: no queue is created and
no queue changes. -/
theorem C5_saveTx_stale_rejected (m : UsersTxs) (tx : Transaction) (userNonce : Int)
    (h : tx.Nonce ≤ (match m.m (UsersTxs.key tx) with
                      | some userTxs => userTxs.Nonce
                      | none => userNonce)) :
    UsersTxs.SaveTx m tx userNonce = (m, [], false) := by
  unfold UsersTxs.SaveTx UsersTxs.lookupOrNew
  cases hq : m.m (UsersTxs.key tx) with
  | none =>
    rw [hq] at h
    have h2 : (NewUserTxs userNonce).Nonce ≥ tx.Nonce := h
    simp only [h2, if_true]
  | some u =>
    rw [hq] at h
    have h2 : u.Nonce ≥ tx.Nonce := h
    simp only [h2, if_true]

/-- Witness of C5: nonce 5 for a new account seen with `userNonce = 5`. -/
theorem C5_saveTx_stale_rejected_witness :
    ((sampleTx 5).Nonce ≤ (match NewUsersTxs.m (UsersTxs.key (sampleTx 5)) with
                      | some userTxs => userTxs.Nonce
                      | none => 5)) ∧
      UsersTxs.SaveTx NewUsersTxs (sampleTx 5) 5 = (NewUsersTxs, [], false) :=
  ⟨by decide, C5_saveTx_stale_rejected NewUsersTxs (sampleTx 5) 5 (by decide)⟩

/-- C6 (failing input): `SaveTx` of nonce 2, then of nonce 3 (whose insertion into
the pending index is lost), then `Notify` with nonce 3, all for one account first
seen with `userNonce = 0`, give a reachable registry in which `SaveTx` of nonce 4
returns ready with the run `[tx 4]` and new watermark 4, while the buffer map still
holds the transaction with nonce 3, a key that is not above the new watermark.
The pending index is empty. -/
theorem C6_purge_leaves_key_below_watermark :
    Reachable (UsersTxs.run NewUsersTxs
      [Call.saveTx (sampleTx 2) 0, Call.saveTx (sampleTx 3) 0, Call.notify (sampleTx 3)]) ∧
    (UsersTxs.SaveTx (UsersTxs.run NewUsersTxs
        [Call.saveTx (sampleTx 2) 0, Call.saveTx (sampleTx 3) 0, Call.notify (sampleTx 3)])
      (sampleTx 4) 0).2 = ([some (sampleTx 4)], true) ∧
    ((UsersTxs.run NewUsersTxs
        [Call.saveTx (sampleTx 2) 0, Call.saveTx (sampleTx 3) 0, Call.notify (sampleTx 3),
         Call.saveTx (sampleTx 4) 0]).m (UsersTxs.key (sampleTx 4))).map
        (fun userTxs => (userTxs.Nonce, userTxs.Nonces, userTxs.Txs 3))
      = some (4, [], some (sampleTx 3)) := by
  refine ⟨?_, by decide, by decide⟩
  show Reachable (UsersTxs.Notify
    (UsersTxs.SaveTx (UsersTxs.SaveTx NewUsersTxs (sampleTx 2) 0).1 (sampleTx 3) 0).1
    (sampleTx 3))
  exact Reachable.notify _ _
    (Reachable.saveTx _ _ _ (Reachable.saveTx _ _ _ Reachable.init (by decide) (by decide))
      (by decide) (by decide))
    (by decide)

/-- C7 (failing input): after `SaveTx` of nonce 2 and of nonce 3 for an account
first seen with `userNonce = 0` (a reachable registry, the queue has watermark 0,
pending index `[2]` and buffers nonces 2 and 3), `Notify` with nonce 5 sets the
watermark to 5 and empties the pending index, but the buffer map still holds the
transaction with nonce 3. -/
theorem C7_notify_leaves_key_below_watermark :
    Reachable (UsersTxs.run NewUsersTxs
      [Call.saveTx (sampleTx 2) 0, Call.saveTx (sampleTx 3) 0]) ∧
    ((UsersTxs.run NewUsersTxs [Call.saveTx (sampleTx 2) 0, Call.saveTx (sampleTx 3) 0]).m
      (UsersTxs.key (sampleTx 5))).map
        (fun userTxs => (userTxs.Nonce, userTxs.Nonces, userTxs.Txs 2, userTxs.Txs 3))
      = some (0, [2], some (sampleTx 2), some (sampleTx 3)) ∧
    ((UsersTxs.Notify
        (UsersTxs.run NewUsersTxs [Call.saveTx (sampleTx 2) 0, Call.saveTx (sampleTx 3) 0])
        (sampleTx 5)).m (UsersTxs.key (sampleTx 5))).map
        (fun userTxs => (userTxs.Nonce, userTxs.Nonces, userTxs.Txs 2, userTxs.Txs 3))
      = some (5, [], none, some (sampleTx 3)) := by
  refine ⟨?_, by decide, by decide⟩
  show Reachable
    (UsersTxs.SaveTx (UsersTxs.SaveTx NewUsersTxs (sampleTx 2) 0).1 (sampleTx 3) 0).1
  exact Reachable.saveTx _ _ _ (Reachable.saveTx _ _ _ Reachable.init (by decide) (by decide))
    (by decide) (by decide)

/-- C8 (failing input): after `SaveTx` of nonce 2 and of nonce 3 for an account
first seen with `userNonce = 0` (a registry reachable by `SaveTx` calls), `SaveTx`
of nonce 1 returns ready with the run `[tx 1, tx 2]` and new watermark 2, although
the transaction with nonce `2+1 = 3` is held in the buffer map before and after
the call. -/
theorem C8_ready_run_not_maximal :
    ReachableBySaveTx (UsersTxs.run NewUsersTxs
      [Call.saveTx (sampleTx 2) 0, Call.saveTx (sampleTx 3) 0]) ∧
    ((UsersTxs.run NewUsersTxs [Call.saveTx (sampleTx 2) 0, Call.saveTx (sampleTx 3) 0]).m
      (UsersTxs.key (sampleTx 1))).map (fun userTxs => userTxs.Txs 3)
      = some (some (sampleTx 3)) ∧
    (UsersTxs.SaveTx
      (UsersTxs.run NewUsersTxs [Call.saveTx (sampleTx 2) 0, Call.saveTx (sampleTx 3) 0])
      (sampleTx 1) 0).2 = ([some (sampleTx 1), some (sampleTx 2)], true) ∧
    ((UsersTxs.run NewUsersTxs
        [Call.saveTx (sampleTx 2) 0, Call.saveTx (sampleTx 3) 0, Call.saveTx (sampleTx 1) 0]).m
      (UsersTxs.key (sampleTx 1))).map (fun userTxs => (userTxs.Nonce, userTxs.Txs (2 + 1)))
      = some (2, some (sampleTx 3)) := by
  refine ⟨?_, by decide, by decide, by decide⟩
  show ReachableBySaveTx
    (UsersTxs.SaveTx (UsersTxs.SaveTx NewUsersTxs (sampleTx 2) 0).1 (sampleTx 3) 0).1
  exact ReachableBySaveTx.saveTx _ _ _
    (ReachableBySaveTx.saveTx _ _ _ ReachableBySaveTx.init (by decide) (by decide))
    (by decide) (by decide)

/-- C9: in a reachable registry, when `SaveTx(tx, userNonce)` returns `(run, true)`
for an account whose watermark before the call is `w` (the `Nonce` of its queue, or
the `int64` value `userNonce` when it has no queue), `run` is non-empty, `run[0]`
is `tx`, `run[i]` is a transaction with nonce `w+1+i` for every index `i`, every
`run[i]` after the first is the transaction that was buffered at that nonce, and
the new watermark is `w + len(run)`, the nonce of the last element. -/
theorem C9_ready_run_is_gap_free (m : UsersTxs) (tx : Transaction) (userNonce : Int)
    (run : List TxPtr) (hm : Reachable m) (hn : isInt64 userNonce)
    (hready : (UsersTxs.SaveTx m tx userNonce).2 = (run, true)) :
    run ≠ [] ∧ run[0]? = some (some tx) ∧
    (∀ i : Nat, i < run.length → ∃ t : Transaction, run[i]? = some (some t) ∧
      t.Nonce = (UsersTxs.lookupOrNew m tx userNonce).Nonce + 1 + i ∧
      (0 < i → (UsersTxs.lookupOrNew m tx userNonce).Txs
        ((UsersTxs.lookupOrNew m tx userNonce).Nonce + 1 + i) = some t)) ∧
    ((UsersTxs.SaveTx m tx userNonce).1.m (UsersTxs.key tx)).map (fun userTxs => userTxs.Nonce)
      = some ((UsersTxs.lookupOrNew m tx userNonce).Nonce + run.length) := by
  have hinv := inv_lookupOrNew m tx userNonce (reachable_inv m hm) hn
  by_cases hst : tx.Nonce ≤ (UsersTxs.lookupOrNew m tx userNonce).Nonce
  · rw [saveTx_stale m tx userNonce hst] at hready
    simp at hready
  have hlt : (UsersTxs.lookupOrNew m tx userNonce).Nonce < tx.Nonce := not_le.mp hst
  rw [saveTx_fresh m tx userNonce hlt] at hready ⊢
  generalize UsersTxs.lookupOrNew m tx userNonce = u at hinv hlt hready ⊢
  by_cases hdup : u.Txs tx.Nonce = none
  swap
  · have hs : UserTxs.Save u tx = (u, [], false) := by
      unfold UserTxs.Save
      rw [if_pos hdup]
    rw [hs] at hready
    simp at hready
  by_cases hnext : tx.Nonce = wrap64 (u.Nonce + 1)
  swap
  · rw [save_not_ready u tx hdup hnext] at hready
    simp at hready
  have hbase : tx.Nonce = u.Nonce + 1 := by
    have h1 := hinv.1.1
    have h2 := hinv.1.2
    unfold int64Min at h1
    unfold int64Max at h2
    rw [hnext] at hlt ⊢
    unfold wrap64 at hlt ⊢
    omega
  rw [save_ready u tx hdup hnext] at hready ⊢
  have hrun : (UserTxs.saveLoop (TxMap.set u.Txs tx.Nonce (some tx))
      (NonceList.Insert u.Nonces tx.Nonce) ([some tx], tx.Nonce)).1 = run := by
    have := congrArg Prod.fst hready
    exact this
  obtain ⟨ext, hext⟩ := saveLoop_extends (TxMap.set u.Txs tx.Nonce (some tx))
    (NonceList.Insert u.Nonces tx.Nonce) [some tx] tx.Nonce
  obtain ⟨hlen, hall⟩ := saveLoop_run (TxMap.set u.Txs tx.Nonce (some tx)) u.Nonce tx.Nonce
    (NonceList.Insert u.Nonces tx.Nonce) [some tx] tx.Nonce hinv.1.1
    (insert_set_pair u tx hinv hlt)
    (by rw [hnext]; exact wrap64_isInt64 _)
    (by simp)
    (by
      intro i hi
      have hi0 : i = 0 := by simpa using hi
      subst hi0
      exact ⟨tx, rfl, by simp, fun h => absurd h (lt_irrefl 0)⟩)
  rw [hrun] at hlen hall
  rw [hrun] at hext
  refine ⟨?_, ?_, ?_, ?_⟩
  · rw [hext]; simp
  · rw [hext]; simp
  · intro i hi
    obtain ⟨t, h1, h2, h3⟩ := hall i hi
    refine ⟨t, h1, by rw [h2, hbase], ?_⟩
    intro hpos
    have h4 := h3 hpos
    have hne : ¬ (tx.Nonce + (i : Int) = tx.Nonce) := by omega
    simp only [TxMap.set, hne, if_false] at h4
    rw [← hbase]
    exact h4
  · rw [set_m_self]
    show some (UserTxs.saveLoop (TxMap.set u.Txs tx.Nonce (some tx))
      (NonceList.Insert u.Nonces tx.Nonce) ([some tx], tx.Nonce)).2 = _
    congr 1
    omega

/-- Witness of C9: nonce 6 closes the gap before the buffered nonce 7. -/
theorem C9_ready_run_is_gap_free_witness :
    (isInt64 5 ∧
      (UsersTxs.SaveTx (UsersTxs.run NewUsersTxs [Call.saveTx (sampleTx 7) 5]) (sampleTx 6) 5).2
        = ([some (sampleTx 6), some (sampleTx 7)], true)) ∧
    ([some (sampleTx 6), some (sampleTx 7)] ≠ [] ∧
      [some (sampleTx 6), some (sampleTx 7)][0]? = some (some (sampleTx 6)) ∧
      (∀ i : Nat, i < [some (sampleTx 6), some (sampleTx 7)].length → ∃ t : Transaction,
        [some (sampleTx 6), some (sampleTx 7)][i]? = some (some t) ∧
        t.Nonce = (UsersTxs.lookupOrNew (UsersTxs.run NewUsersTxs [Call.saveTx (sampleTx 7) 5])
          (sampleTx 6) 5).Nonce + 1 + i ∧
        (0 < i → (UsersTxs.lookupOrNew (UsersTxs.run NewUsersTxs [Call.saveTx (sampleTx 7) 5])
            (sampleTx 6) 5).Txs
          ((UsersTxs.lookupOrNew (UsersTxs.run NewUsersTxs [Call.saveTx (sampleTx 7) 5])
            (sampleTx 6) 5).Nonce + 1 + i) = some t)) ∧
      ((UsersTxs.SaveTx (UsersTxs.run NewUsersTxs [Call.saveTx (sampleTx 7) 5]) (sampleTx 6) 5).1.m
          (UsersTxs.key (sampleTx 6))).map (fun userTxs => userTxs.Nonce)
        = some ((UsersTxs.lookupOrNew (UsersTxs.run NewUsersTxs [Call.saveTx (sampleTx 7) 5])
          (sampleTx 6) 5).Nonce + [some (sampleTx 6), some (sampleTx 7)].length)) :=
  ⟨by decide,
   C9_ready_run_is_gap_free (UsersTxs.run NewUsersTxs [Call.saveTx (sampleTx 7) 5]) (sampleTx 6) 5
     [some (sampleTx 6), some (sampleTx 7)]
     (Reachable.saveTx NewUsersTxs (sampleTx 7) 5 Reachable.init (by decide) (by decide))
     (by decide) (by decide)⟩

/-- C10 (failing input): `Insert(2)` on the ascending list `[1]` leaves the list
`[1]`: the nonce is not a member afterwards and the length has not grown. -/
theorem C10_insert_greater_than_all_is_lost :
    NonceList.Insert [1] 2 = [1] ∧ 2 ∉ NonceList.Insert [1] 2 ∧
      (NonceList.Insert [1] 2).length = [1].length := by
  decide

/-! ### `NonceList.Delete` and `UserTxs.Remove` -/

theorem deleteLoop_eq (n : Int) (l acc : List Int) :
    NonceList.deleteLoop n l acc = acc ++ l.filter (fun x => decide (x ≠ n)) := by
  induction l generalizing acc with
  | nil => simp [NonceList.deleteLoop]
  | cons a l ih =>
    by_cases ha : a ≠ n
    · simp only [NonceList.deleteLoop, ha, if_true, ih]
      simp [List.filter_cons, ha]
    · simp only [NonceList.deleteLoop, ha, if_false, ih]
      simp [List.filter_cons, ha]

/-- `Delete` keeps, in order, the entries that differ from the nonce. -/
theorem delete_eq_filter (l : List Int) (n : Int) :
    NonceList.Delete l n = l.filter (fun x => decide (x ≠ n)) := by
  unfold NonceList.Delete
  rw [deleteLoop_eq]
  simp [NewNonceList]

theorem filter_ne_of_not_mem (l : List Int) (n : Int) (h : n ∉ l) :
    l.filter (fun x => decide (x ≠ n)) = l := by
  apply List.filter_eq_self.mpr
  intro a ha
  have : a ≠ n := fun e => h (e ▸ ha)
  simp [this]

theorem filter_ne_eq_erase (l : List Int) (n : Int) (h : l.count n ≤ 1) :
    l.filter (fun x => decide (x ≠ n)) = l.erase n := by
  induction l with
  | nil => rfl
  | cons a l ih =>
    by_cases ha : a = n
    · subst ha
      have hc : l.count a = 0 := by
        rw [List.count_cons_self] at h
        omega
      have hn : a ∉ l := List.count_eq_zero.mp hc
      rw [List.filter_cons, List.erase_cons_head]
      simp only [ne_eq, not_true_eq_false, decide_False, Bool.false_eq_true, if_false]
      exact filter_ne_of_not_mem l a hn
    · have hc : l.count n ≤ 1 := by
        rw [List.count_cons_of_ne (fun e => ha e.symm)] at h
        exact h
      rw [List.filter_cons]
      simp only [ne_eq, ha, not_false_eq_true, decide_True, if_true]
      rw [ih hc, List.erase_cons_tail (by simpa using ha)]

/-! ### The watermark under `UserTxs.Save` -/

/-- The scan loop never lowers `lastNonce` when no nonce of the index is the
smallest `int64`: `lastNonce + 1` then does not wrap around. -/
theorem saveLoop_mono (txs : TxMap) (l : List Int) (list : List TxPtr) (last : Int)
    (hl : ∀ n ∈ l, int64Min < n) (hlast : isInt64 last) :
    last ≤ (UserTxs.saveLoop txs l (list, last)).2 := by
  induction l generalizing list last with
  | nil => exact le_refl _
  | cons a l ih =>
    have hl2 : ∀ n ∈ l, int64Min < n := fun n hn => hl n (List.mem_cons_of_mem a hn)
    by_cases ha : a = wrap64 (last + 1)
    · simp only [UserTxs.saveLoop, ha, if_true]
      have hgt := hl a (List.mem_cons_self a l)
      have hstep : last ≤ wrap64 (last + 1) := by
        have h1 := hlast.1
        have h2 := hlast.2
        rw [ha] at hgt
        unfold int64Min at hgt h1
        unfold int64Max at h2
        unfold wrap64 at hgt ⊢
        omega
      exact le_trans hstep (ih _ _ hl2 (wrap64_isInt64 _))
    · simp only [UserTxs.saveLoop, ha, if_false]
      exact ih _ _ hl2 hlast

/-- `Save` never lowers the watermark of a queue that satisfies the invariant when
the watermark is below the largest `int64` or below the nonce of the
transaction. -/
theorem save_mono (u : UserTxs) (tx : Transaction) (hu : UserTxs.Inv u)
    (hmax : u.Nonce < int64Max ∨ u.Nonce < tx.Nonce) :
    u.Nonce ≤ (UserTxs.Save u tx).1.Nonce := by
  by_cases hdup : u.Txs tx.Nonce = none
  · by_cases hnext : tx.Nonce = wrap64 (u.Nonce + 1)
    · rw [save_ready u tx hdup hnext]
      show u.Nonce ≤ (UserTxs.saveLoop _ _ ([some tx], tx.Nonce)).2
      have hmin := hu.1.1
      have hbase : tx.Nonce = u.Nonce + 1 := by
        have h1 := hu.1.1
        have h2 := hu.1.2
        unfold int64Min at h1
        unfold int64Max at h2 hmax
        rw [hnext] at hmax ⊢
        unfold wrap64 at hmax ⊢
        omega
      have hloop := saveLoop_mono (TxMap.set u.Txs tx.Nonce (some tx))
        (NonceList.Insert u.Nonces tx.Nonce) [some tx] tx.Nonce
        (by
          intro n hn
          rcases insert_mem _ _ _ hn with h | h
          · have := (hu.2 n h).1
            omega
          · rw [h, hbase]; omega)
        (by rw [hnext]; exact wrap64_isInt64 _)
      omega
    · rw [save_not_ready u tx hdup hnext]
  · have hs : UserTxs.Save u tx = (u, [], false) := by
      unfold UserTxs.Save
      rw [if_pos hdup]
    rw [hs]

/-! ### The pending index is strictly ascending -/

theorem insertLoop_sorted (n : Int) (l acc r : List Int)
    (hs : List.Pairwise (fun a b => a < b) (acc ++ l)) (hacc : ∀ x ∈ acc, x < n)
    (hn : n ∉ l) (h : NonceList.insertLoop n l acc = some r) :
    List.Pairwise (fun a b => a < b) r := by
  induction l generalizing acc with
  | nil => simp [NonceList.insertLoop] at h
  | cons a l ih =>
    have hna : n ≠ a := fun e => hn (e ▸ List.mem_cons_self a l)
    have hnl : n ∉ l := fun e => hn (List.mem_cons_of_mem a e)
    by_cases ha : a < n
    · simp only [NonceList.insertLoop, ha, if_true] at h
      apply ih (acc ++ [a]) _ _ hnl h
      · rw [List.append_assoc]
        exact hs
      · intro x hx
        rcases List.mem_append.mp hx with h1 | h1
        · exact hacc x h1
        · rw [List.mem_singleton.mp h1]; exact ha
    · simp only [NonceList.insertLoop, ha, if_false, Option.some.injEq] at h
      subst h
      have hlt : n < a := by omega
      obtain ⟨h1, h2, h3⟩ := List.pairwise_append.mp hs
      obtain ⟨h4, _⟩ := List.pairwise_cons.mp h2
      rw [List.pairwise_append]
      refine ⟨?_, h2, ?_⟩
      · rw [List.pairwise_append]
        refine ⟨h1, List.pairwise_singleton _ _, ?_⟩
        intro x hx y hy
        rw [List.mem_singleton.mp hy]
        exact hacc x hx
      · intro x hx y hy
        rcases List.mem_append.mp hx with hx1 | hx1
        · exact h3 x hx1 y hy
        · rw [List.mem_singleton.mp hx1]
          rcases List.mem_cons.mp hy with hy1 | hy1
          · rw [hy1]; exact hlt
          · exact lt_trans hlt (h4 y hy1)

/-- `Insert` of a nonce that is not in a strictly ascending list leaves a strictly
ascending list. -/
theorem insert_sorted (n : Int) (l : List Int)
    (hs : List.Pairwise (fun a b => a < b) l) (hn : n ∉ l) :
    List.Pairwise (fun a b => a < b) (NonceList.Insert l n) := by
  unfold NonceList.Insert
  by_cases hlen : l.length = 0
  · have hl : l = [] := List.length_eq_zero.mp hlen
    subst hl
    simp
  · simp only [hlen, if_false]
    cases hloop : NonceList.insertLoop n l [] with
    | none => exact hs
    | some r =>
      exact insertLoop_sorted n l [] r (by simpa using hs) (by simp) hn hloop

theorem clearLoop_sorted (w : Int) (l : List Int) (txs : TxMap) (acc : NonceList)
    (hs : List.Pairwise (fun a b => a < b) l) (hacc : List.Pairwise (fun a b => a < b) acc)
    (hlt : ∀ a ∈ acc, ∀ x ∈ l, a < x) :
    List.Pairwise (fun a b => a < b) (UserTxs.clearLoop w l (txs, acc)).2 := by
  induction l generalizing txs acc with
  | nil => exact hacc
  | cons a l ih =>
    obtain ⟨h1, h2⟩ := List.pairwise_cons.mp hs
    by_cases ha : a > w
    · simp only [UserTxs.clearLoop, ha, if_true]
      apply ih _ _ h2
      · apply insert_sorted a acc hacc
        intro hmem
        exact lt_irrefl a (hlt a hmem a (List.mem_cons_self a l))
      · intro x hx y hy
        rcases insert_mem a acc x hx with h | h
        · exact hlt x h y (List.mem_cons_of_mem a hy)
        · rw [h]; exact h1 y hy
    · simp only [UserTxs.clearLoop, ha, if_false]
      exact ih _ _ h2 hacc (fun x hx y hy => hlt x hx y (List.mem_cons_of_mem a hy))

theorem clearNonces_sorted (u : UserTxs) (hs : List.Pairwise (fun a b => a < b) u.Nonces) :
    List.Pairwise (fun a b => a < b) (UserTxs.clearNonces u).Nonces :=
  clearLoop_sorted u.Nonce u.Nonces u.Txs NewNonceList hs List.Pairwise.nil
    (fun a ha => by simp [NewNonceList] at ha)

theorem save_sorted (u : UserTxs) (tx : Transaction) (hu : UserTxs.Inv u)
    (hs : List.Pairwise (fun a b => a < b) u.Nonces) :
    List.Pairwise (fun a b => a < b) (UserTxs.Save u tx).1.Nonces := by
  by_cases hdup : u.Txs tx.Nonce = none
  · have hn : tx.Nonce ∉ u.Nonces := by
      intro hmem
      obtain ⟨t, ht, _⟩ := (hu.2 _ hmem).2
      rw [hdup] at ht
      exact Option.noConfusion ht
    have hins := insert_sorted tx.Nonce u.Nonces hs hn
    by_cases hnext : tx.Nonce = wrap64 (u.Nonce + 1)
    · rw [save_ready u tx hdup hnext]
      exact clearNonces_sorted _ hins
    · rw [save_not_ready u tx hdup hnext]
      exact hins
  · have hsave : UserTxs.Save u tx = (u, [], false) := by
      unfold UserTxs.Save
      rw [if_pos hdup]
    rw [hsave]
    exact hs

/-- The pending index of every queue of a reachable registry is strictly
ascending. -/
theorem reachable_sorted (m : UsersTxs) (h : Reachable m) :
    ∀ k u, m.m k = some u → List.Pairwise (fun a b => a < b) u.Nonces := by
  induction h with
  | init =>
    intro k u hk
    simp [NewUsersTxs] at hk
  | saveTx m tx userNonce hm _ hn ih =>
    intro k u hk
    by_cases hst : tx.Nonce ≤ (UsersTxs.lookupOrNew m tx userNonce).Nonce
    · rw [saveTx_stale m tx userNonce hst] at hk
      exact ih k u hk
    · rw [saveTx_fresh m tx userNonce (not_le.mp hst)] at hk
      unfold UsersTxs.set at hk
      by_cases hj : k = UsersTxs.key tx
      · simp only [hj, if_true, Option.some.injEq] at hk
        rw [← hk]
        apply save_sorted _ tx (inv_lookupOrNew m tx userNonce (reachable_inv m hm) hn)
        unfold UsersTxs.lookupOrNew
        cases hq : m.m (UsersTxs.key tx) with
        | none => exact List.Pairwise.nil
        | some v => exact ih _ v hq
      · simp only [hj, if_false] at hk
        exact ih k u hk
  | notify m tx _ _ ih =>
    intro k u hk
    unfold UsersTxs.Notify at hk
    cases hq : m.m (UsersTxs.key tx) with
    | none =>
      rw [hq] at hk
      exact ih k u hk
    | some v =>
      rw [hq] at hk
      unfold UsersTxs.set at hk
      by_cases hj : k = UsersTxs.key tx
      · simp only [hj, if_true, Option.some.injEq] at hk
        rw [← hk]
        exact clearNonces_sorted _ (ih _ v hq)
      · simp only [hj, if_false] at hk
        exact ih k u hk

/-! ## The claims on `Delete`, `Remove`, the watermark and the index -/

/-- C11 (counterexample): `Delete(5)` on `[5, 7, 5]` leaves `[7]`, not the list
`[7, 5]` in which only the first occurrence of 5 is removed. -/
theorem C11_delete_counterexample :
    NonceList.Delete [5, 7, 5] 5 = [7] ∧ List.erase [5, 7, 5] 5 = [7, 5] ∧
      ¬ (NonceList.Delete [5, 7, 5] 5 = List.erase [5, 7, 5] 5) := by
  decide

/-- C11 (amended): after `l.Delete(n)` the list is `l` with every occurrence of `n`
removed and all other entries kept in order; when `n` occurs at most once in `l`
that is `l` with its first occurrence of `n` removed, and when `n` does not occur
in `l` the list is unchanged. -/
theorem C11_delete_removes_every_occurrence (l : NonceList) (n : Int) :
    NonceList.Delete l n = l.filter (fun x => decide (x ≠ n)) ∧
    (l.count n ≤ 1 → NonceList.Delete l n = l.erase n) ∧
    (n ∉ l → NonceList.Delete l n = l) := by
  refine ⟨delete_eq_filter l n, ?_, ?_⟩
  · intro h
    rw [delete_eq_filter, filter_ne_eq_erase l n h]
  · intro h
    rw [delete_eq_filter, filter_ne_of_not_mem l n h]

/-- Witness of C11 (amended): deleting 2 from `[1, 2, 3]` and 4 from `[1, 2, 3]`. -/
theorem C11_delete_removes_every_occurrence_witness :
    (List.count 2 [1, 2, 3] ≤ 1 ∧ NonceList.Delete [1, 2, 3] 2 = List.erase [1, 2, 3] 2) ∧
    ((4 : Int) ∉ [1, 2, 3] ∧ NonceList.Delete [1, 2, 3] 4 = [1, 2, 3]) :=
  ⟨⟨by decide, (C11_delete_removes_every_occurrence [1, 2, 3] 2).2.1 (by decide)⟩,
   ⟨by decide, (C11_delete_removes_every_occurrence [1, 2, 3] 4).2.2 (by decide)⟩⟩

/-- C12: after `s.Remove(tx)` the nonce `tx.Nonce` is neither a key of the buffer
map nor an element of the pending index, the watermark is the larger of the old
watermark and `tx.Nonce`, every other key of the buffer map holds what it held,
and the pending index is the old one without `tx.Nonce`, in the same order. -/
theorem C12_remove_is_destructive_skip (s : UserTxs) (tx : Transaction) :
    (UserTxs.Remove s tx).Txs tx.Nonce = none ∧
    tx.Nonce ∉ (UserTxs.Remove s tx).Nonces ∧
    (UserTxs.Remove s tx).Nonce = max s.Nonce tx.Nonce ∧
    (∀ k : Int, k ≠ tx.Nonce → (UserTxs.Remove s tx).Txs k = s.Txs k) ∧
    (UserTxs.Remove s tx).Nonces = s.Nonces.filter (fun x => decide (x ≠ tx.Nonce)) := by
  refine ⟨?_, ?_, ?_, ?_, ?_⟩
  · unfold UserTxs.Remove
    by_cases h : s.Txs tx.Nonce ≠ none
    · simp [h, TxMap.delete]
    · simp only [h, if_false]
      exact not_not.mp h
  · show tx.Nonce ∉ NonceList.Delete s.Nonces tx.Nonce
    rw [delete_eq_filter]
    simp
  · show (if s.Nonce < tx.Nonce then tx.Nonce else s.Nonce) = max s.Nonce tx.Nonce
    by_cases h : s.Nonce < tx.Nonce
    · rw [if_pos h, max_eq_right (le_of_lt h)]
    · rw [if_neg h, max_eq_left (not_lt.mp h)]
  · intro k hk
    unfold UserTxs.Remove
    by_cases h : s.Txs tx.Nonce ≠ none
    · simp [h, TxMap.delete, hk]
    · simp [h]
  · exact delete_eq_filter s.Nonces tx.Nonce

/-- The calls other than `Notify` never lower a watermark: `UserTxs.Remove` in
every state (it assigns `tx.Nonce` only under `sorted.Nonce < tx.Nonce`),
`UsersTxs.SaveTx` in every reachable registry (the watermark of an account
without a queue being the `int64` value `userNonce`), and `UserTxs.Save` on a
queue that satisfies the invariant of the reachable queues and whose watermark is
below the largest `int64`. -/
theorem watermark_monotone_save_remove (m : UsersTxs) (u s : UserTxs) (tx : Transaction)
    (userNonce : Int) (hm : Reachable m) (hn : isInt64 userNonce) (hu : UserTxs.Inv u)
    (hmax : u.Nonce < int64Max) :
    u.Nonce ≤ (UserTxs.Save u tx).1.Nonce ∧
    s.Nonce ≤ (UserTxs.Remove s tx).Nonce ∧
    (∀ v : UserTxs, (UsersTxs.SaveTx m tx userNonce).1.m (UsersTxs.key tx) = some v →
      (UsersTxs.lookupOrNew m tx userNonce).Nonce ≤ v.Nonce) := by
  refine ⟨save_mono u tx hu (Or.inl hmax), ?_, ?_⟩
  · show s.Nonce ≤ (if s.Nonce < tx.Nonce then tx.Nonce else s.Nonce)
    by_cases h : s.Nonce < tx.Nonce
    · rw [if_pos h]; exact le_of_lt h
    · rw [if_neg h]
  · intro v hv
    by_cases hst : tx.Nonce ≤ (UsersTxs.lookupOrNew m tx userNonce).Nonce
    · rw [saveTx_stale m tx userNonce hst] at hv
      have hl : UsersTxs.lookupOrNew m tx userNonce = v := by
        unfold UsersTxs.lookupOrNew
        rw [hv]
      rw [hl]
    · rw [saveTx_fresh m tx userNonce (not_le.mp hst), set_m_self] at hv
      have hv2 : (UserTxs.Save (UsersTxs.lookupOrNew m tx userNonce) tx).1 = v :=
        Option.some.inj hv
      rw [← hv2]
      exact save_mono _ tx (inv_lookupOrNew m tx userNonce (reachable_inv m hm) hn)
        (Or.inr (not_le.mp hst))

/-- C13 (failing input): `SaveTx` of nonce 2 and then of nonce 1 for an account
first seen with `userNonce = 0` releases the run `[tx 1, tx 2]` and leaves the
watermark at 2, in a reachable registry.  `Notify` with the transaction of nonce 1
then sets the watermark to 1, which is lower, where `Remove` with the same
transaction would leave it at 2; and a further `SaveTx` of nonce 2 is accepted and
released again, as the run `[tx 2]`. -/
theorem C13_notify_lowers_watermark :
    Reachable (UsersTxs.run NewUsersTxs
      [Call.saveTx (sampleTx 2) 0, Call.saveTx (sampleTx 1) 0]) ∧
    (UsersTxs.SaveTx (UsersTxs.run NewUsersTxs [Call.saveTx (sampleTx 2) 0])
      (sampleTx 1) 0).2 = ([some (sampleTx 1), some (sampleTx 2)], true) ∧
    ((UsersTxs.run NewUsersTxs [Call.saveTx (sampleTx 2) 0, Call.saveTx (sampleTx 1) 0]).m
      (UsersTxs.key (sampleTx 1))).map
        (fun userTxs => (userTxs.Nonce, (UserTxs.Remove userTxs (sampleTx 1)).Nonce))
      = some (2, 2) ∧
    ((UsersTxs.run NewUsersTxs
        [Call.saveTx (sampleTx 2) 0, Call.saveTx (sampleTx 1) 0, Call.notify (sampleTx 1)]).m
      (UsersTxs.key (sampleTx 1))).map (fun userTxs => userTxs.Nonce) = some 1 ∧
    (UsersTxs.SaveTx (UsersTxs.run NewUsersTxs
        [Call.saveTx (sampleTx 2) 0, Call.saveTx (sampleTx 1) 0, Call.notify (sampleTx 1)])
      (sampleTx 2) 0).2 = ([some (sampleTx 2)], true) := by
  refine ⟨?_, by decide, by decide, by decide, by decide⟩
  show Reachable
    (UsersTxs.SaveTx (UsersTxs.SaveTx NewUsersTxs (sampleTx 2) 0).1 (sampleTx 1) 0).1
  exact Reachable.saveTx _ _ _ (Reachable.saveTx _ _ _ Reachable.init (by decide) (by decide))
    (by decide) (by decide)

/-- C14 (failing input): after `SaveTx` of nonce 2 and of nonce 3 for an account
first seen with `userNonce = 0`, a reachable registry, the buffer map of the queue
holds the keys 2 and 3 while the pending index is `[2]`: the key 3 is not an
element of the index. -/
theorem C14_buffer_key_missing_from_index :
    Reachable (UsersTxs.run NewUsersTxs
      [Call.saveTx (sampleTx 2) 0, Call.saveTx (sampleTx 3) 0]) ∧
    ((UsersTxs.run NewUsersTxs [Call.saveTx (sampleTx 2) 0, Call.saveTx (sampleTx 3) 0]).m
      (UsersTxs.key (sampleTx 3))).map
        (fun userTxs => (userTxs.Nonces, userTxs.Txs 2, userTxs.Txs 3, decide (3 ∈ userTxs.Nonces)))
      = some ([2], some (sampleTx 2), some (sampleTx 3), false) := by
  refine ⟨?_, by decide⟩
  show Reachable
    (UsersTxs.SaveTx (UsersTxs.SaveTx NewUsersTxs (sampleTx 2) 0).1 (sampleTx 3) 0).1
  exact Reachable.saveTx _ _ _ (Reachable.saveTx _ _ _ Reachable.init (by decide) (by decide))
    (by decide) (by decide)

/-- C15 (failing input): `SaveTx` of nonce 7 and then of nonce 5 for an account
first seen with `userNonce = 0` give a reachable registry whose queue has the
ascending pending index `[5, 7]` and a buffer map with exactly the keys 5 and 7.
After `Notify` with a transaction of nonce 3 the pending index is `[5]`: nonce 7,
pending before the call and greater than 3, is no longer in the pending index
(it is still in the buffer map). -/
theorem C15_notify_drops_pending_nonce :
    Reachable (UsersTxs.run NewUsersTxs
      [Call.saveTx (sampleTx 7) 0, Call.saveTx (sampleTx 5) 0]) ∧
    (∃ u : UserTxs,
      (UsersTxs.run NewUsersTxs [Call.saveTx (sampleTx 7) 0, Call.saveTx (sampleTx 5) 0]).m
        (UsersTxs.key (sampleTx 3)) = some u ∧
      u.Nonces = [5, 7] ∧ List.Pairwise (fun a b => a < b) u.Nonces ∧
      (∀ k : Int, k ∈ u.Nonces ↔ u.Txs k ≠ none)) ∧
    ((UsersTxs.Notify
        (UsersTxs.run NewUsersTxs [Call.saveTx (sampleTx 7) 0, Call.saveTx (sampleTx 5) 0])
        (sampleTx 3)).m (UsersTxs.key (sampleTx 3))).map
        (fun userTxs => (userTxs.Nonce, userTxs.Nonces, decide (7 ∈ userTxs.Nonces),
          userTxs.Txs 5, userTxs.Txs 7))
      = some (3, [5], false, some (sampleTx 5), some (sampleTx 7)) := by
  refine ⟨?_, ?_, by decide⟩
  · show Reachable
      (UsersTxs.SaveTx (UsersTxs.SaveTx NewUsersTxs (sampleTx 7) 0).1 (sampleTx 5) 0).1
    exact Reachable.saveTx _ _ _
      (Reachable.saveTx _ _ _ Reachable.init (by decide) (by decide)) (by decide) (by decide)
  · refine ⟨UserTxs.mk
      (TxMap.set (TxMap.set TxMap.empty 7 (some (sampleTx 7))) 5 (some (sampleTx 5))) [5, 7] 0,
      rfl, rfl, by decide, ?_⟩
    intro k
    show k ∈ [5, 7] ↔
      TxMap.set (TxMap.set TxMap.empty 7 (some (sampleTx 7))) 5 (some (sampleTx 5)) k ≠ none
    unfold TxMap.set TxMap.empty
    by_cases h5 : k = 5
    · simp [h5]
    · by_cases h7 : k = 7
      · simp [h7]
      · simp [h5, h7]

/-- C20: in a reachable registry the pending index of every queue is strictly
ascending, every element of it is greater than the watermark, and every element
`k` of it is a key of the buffer map under which a transaction with `Nonce = k`
is stored. -/
theorem C20_structural_invariant (m : UsersTxs) (k : String) (u : UserTxs)
    (hm : Reachable m) (hk : m.m k = some u) :
    List.Pairwise (fun a b => a < b) u.Nonces ∧
    (∀ n ∈ u.Nonces, u.Nonce < n) ∧
    (∀ n ∈ u.Nonces, ∃ t : Transaction, u.Txs n = some t ∧ t.Nonce = n) :=
  ⟨reachable_sorted m hm k u hk,
   fun n hn => ((reachable_inv m hm k u hk).2 n hn).1,
   fun n hn => ((reachable_inv m hm k u hk).2 n hn).2⟩

/-- Witness of C20: the queue with pending index `[5, 7]` reached by `SaveTx` of
nonce 7 and then of nonce 5. -/
theorem C20_structural_invariant_witness :
    (UsersTxs.run NewUsersTxs [Call.saveTx (sampleTx 7) 0, Call.saveTx (sampleTx 5) 0]).m
        (UsersTxs.key (sampleTx 5))
      = some (UserTxs.mk
          (TxMap.set (TxMap.set TxMap.empty 7 (some (sampleTx 7))) 5 (some (sampleTx 5)))
          [5, 7] 0) ∧
    (List.Pairwise (fun a b => a < b) ([5, 7] : List Int) ∧
     (∀ n ∈ ([5, 7] : List Int), (0 : Int) < n) ∧
     (∀ n ∈ ([5, 7] : List Int), ∃ t : Transaction,
        TxMap.set (TxMap.set TxMap.empty 7 (some (sampleTx 7))) 5 (some (sampleTx 5)) n = some t ∧
        t.Nonce = n)) :=
  ⟨rfl,
   C20_structural_invariant
     (UsersTxs.run NewUsersTxs [Call.saveTx (sampleTx 7) 0, Call.saveTx (sampleTx 5) 0])
     (UsersTxs.key (sampleTx 5))
     (UserTxs.mk
       (TxMap.set (TxMap.set TxMap.empty 7 (some (sampleTx 7))) 5 (some (sampleTx 5))) [5, 7] 0)
     (Reachable.saveTx (UsersTxs.SaveTx NewUsersTxs (sampleTx 7) 0).1 (sampleTx 5) 0
       (Reachable.saveTx NewUsersTxs (sampleTx 7) 0 Reachable.init (by decide) (by decide))
       (by decide) (by decide))
     rfl⟩

end pool

namespace userevent

/-! ### `bytes.EqualFold` and receipt equality -/

/-- `utf8.DecodeRune` of a non-empty slice has a width of at least one byte. -/
theorem decodeRune_width_pos (p0 : UInt8) (rest : List UInt8) :
    1 ≤ (utf8.DecodeRune (p0 :: rest)).2 := by
  unfold utf8.DecodeRune
  simp only
  split_ifs <;> simp

/-- What is left of a non-empty slice after its first rune is shorter than the
slice. -/
theorem drop_decodeRune_length (p0 : UInt8) (rest : List UInt8) :
    ((p0 :: rest).drop (utf8.DecodeRune (p0 :: rest)).2).length ≤ rest.length := by
  have h := decodeRune_width_pos p0 rest
  rw [List.length_drop, List.length_cons]
  omega

/-- The loop of `EqualFold` on two equal slices returns `true`. -/
theorem equalFoldLoop_self (foldsTo : Nat → Nat → Bool) (fuel : Nat) (s : List UInt8)
    (h : s.length < fuel) : bytes.equalFoldLoop foldsTo fuel s s = some true := by
  induction fuel generalizing s with
  | zero => exact absurd h (Nat.not_lt_zero _)
  | succ fuel ih =>
    cases s with
    | nil => simp [bytes.equalFoldLoop]
    | cons s0 srest =>
      unfold bytes.equalFoldLoop
      simp only [if_true]
      apply ih
      by_cases hs : s0.toNat < utf8.RuneSelf
      · simp only [hs, if_true]
        simpa using h
      · simp only [hs, if_false]
        have := drop_decodeRune_length s0 srest
        simp only [List.length_cons] at h
        omega

/-- `EqualFold` returns: its loop never reaches the bound on the number of
turns. -/
theorem equalFoldLoop_returns (foldsTo : Nat → Nat → Bool) (fuel : Nat) (s t : List UInt8)
    (h : s.length < fuel) : ∃ b : Bool, bytes.equalFoldLoop foldsTo fuel s t = some b := by
  induction fuel generalizing s t with
  | zero => exact absurd h (Nat.not_lt_zero _)
  | succ fuel ih =>
    cases s with
    | nil =>
      unfold bytes.equalFoldLoop
      exact ⟨_, rfl⟩
    | cons s0 srest =>
      cases t with
      | nil =>
        unfold bytes.equalFoldLoop
        exact ⟨_, rfl⟩
      | cons t0 trest =>
        have hlen : (if s0.toNat < utf8.RuneSelf then (s0.toNat, srest)
            else ((utf8.DecodeRune (s0 :: srest)).1,
              (s0 :: srest).drop (utf8.DecodeRune (s0 :: srest)).2)).2.length < fuel := by
          by_cases hs : s0.toNat < utf8.RuneSelf
          · simp only [hs, if_true]
            simpa using h
          · simp only [hs, if_false]
            have := drop_decodeRune_length s0 srest
            simp only [List.length_cons] at h
            omega
        unfold bytes.equalFoldLoop
        simp only
        generalize (if s0.toNat < utf8.RuneSelf then (s0.toNat, srest)
            else ((utf8.DecodeRune (s0 :: srest)).1,
              (s0 :: srest).drop (utf8.DecodeRune (s0 :: srest)).2)) = sd at hlen ⊢
        generalize (if t0.toNat < utf8.RuneSelf then (t0.toNat, trest)
            else ((utf8.DecodeRune (t0 :: trest)).1,
              (t0 :: trest).drop (utf8.DecodeRune (t0 :: trest)).2)) = td
        split_ifs <;> first | exact ih _ _ hlen | exact ⟨false, rfl⟩

/-- `TransactionReceipt.EqualsTo` returns for all receipts. -/
theorem equalsTo_returns (foldsTo : Nat → Nat → Bool) (r1 r2 : TransactionReceipt) :
    ∃ b : Bool, TransactionReceipt.EqualsTo foldsTo r1 r2 = some b := by
  unfold TransactionReceipt.EqualsTo
  split_ifs
  · exact equalFoldLoop_returns foldsTo _ _ _ (Nat.lt_succ_self _)
  · exact ⟨false, rfl⟩

/-- C16: two receipts with the same `TxId`, `Fee`, `Success` and `FailType`
compare equal under `EqualsTo`, whatever their `SubTransactions` are (and whatever
the Unicode case tables behind `bytes.EqualFold` are). -/
theorem C16_equalsTo_ignores_subTransactions (foldsTo : Nat → Nat → Bool)
    (r1 r2 : TransactionReceipt) (hId : r1.TxId = r2.TxId) (hFee : r1.Fee = r2.Fee)
    (hSuccess : r1.Success = r2.Success) (hFail : r1.FailType = r2.FailType) :
    TransactionReceipt.EqualsTo foldsTo r1 r2 = some true := by
  unfold TransactionReceipt.EqualsTo
  rw [if_pos ⟨hFee, hSuccess, hFail⟩, hId]
  exact equalFoldLoop_self foldsTo _ _ (Nat.lt_succ_self _)

/-- Witness of C16: the same identity, fee, flag and failure type, one receipt
without sub-transfers and one with a sub-transfer. -/
theorem C16_equalsTo_ignores_subTransactions_witness :
    (TransactionReceipt.mk [0x12, 0xfe] 3 true [] 0).SubTransactions
      ≠ (TransactionReceipt.mk [0x12, 0xfe] 3 true
          [SubTransaction.mk [0x12, 0xfe] [0xab] [0xcd] 9 "" []] 0).SubTransactions ∧
    TransactionReceipt.EqualsTo (fun _ _ => false)
      (TransactionReceipt.mk [0x12, 0xfe] 3 true [] 0)
      (TransactionReceipt.mk [0x12, 0xfe] 3 true
        [SubTransaction.mk [0x12, 0xfe] [0xab] [0xcd] 9 "" []] 0) = some true :=
  ⟨by decide,
   C16_equalsTo_ignores_subTransactions (fun _ _ => false)
     (TransactionReceipt.mk [0x12, 0xfe] 3 true [] 0)
     (TransactionReceipt.mk [0x12, 0xfe] 3 true
       [SubTransaction.mk [0x12, 0xfe] [0xab] [0xcd] 9 "" []] 0) rfl rfl rfl rfl⟩

/-- C17 (failing input): two receipts with the same fee, flag and failure type
whose 32-byte identities differ in their first byte, `0x41` against `0x61`, compare
equal under `EqualsTo`, whatever the Unicode case tables are: `bytes.EqualFold`
reads the two bytes as the letters `A` and `a`. -/
theorem C17_equalsTo_folds_case_of_identity (foldsTo : Nat → Nat → Bool) :
    TransactionReceipt.EqualsTo foldsTo
      (TransactionReceipt.mk (0x41 :: List.replicate 31 0x07) 3 true [] 0)
      (TransactionReceipt.mk (0x61 :: List.replicate 31 0x07) 3 true [] 0) = some true ∧
    (TransactionReceipt.mk (0x41 :: List.replicate 31 0x07) 3 true [] 0).TxId
      ≠ (TransactionReceipt.mk (0x61 :: List.replicate 31 0x07) 3 true [] 0).TxId := by
  refine ⟨?_, by decide⟩
  rfl

/-! ### The signing payload -/

/-- C18: `tx.String()` and the signing payload `tx.Msg()` are the same before and
after `tx.SetSign(sig)`; two transactions that agree in every field other than
`Sign` have the same `String()` and the same `Msg()`; and `SetSign` sets `Sign`
and changes no other field.  (Whatever the hash `crypto.Sha3_256` is.) -/
theorem C18_signing_payload_excludes_signature (Sha3_256 : List UInt8 → List UInt8)
    (tx tx1 tx2 : Transaction) (sig : HexBytes)
    (hFrom : tx1.From = tx2.From) (hTo : tx1.To = tx2.To)
    (hTime : tx1.TimeStamp = tx2.TimeStamp) (hAmount : tx1.Amount = tx2.Amount)
    (hFee : tx1.Fee = tx2.Fee) (hNonce : tx1.Nonce = tx2.Nonce)
    (hData : tx1.Data = tx2.Data) (hToken : tx1.TokenAddress = tx2.TokenAddress) :
    Transaction.String (Transaction.SetSign tx sig) = Transaction.String tx ∧
    Transaction.Msg Sha3_256 (Transaction.SetSign tx sig) = Transaction.Msg Sha3_256 tx ∧
    Transaction.String tx1 = Transaction.String tx2 ∧
    Transaction.Msg Sha3_256 tx1 = Transaction.Msg Sha3_256 tx2 ∧
    (Transaction.SetSign tx sig).Sign = sig ∧
    (Transaction.SetSign tx sig).From = tx.From ∧
    (Transaction.SetSign tx sig).To = tx.To ∧
    (Transaction.SetSign tx sig).TimeStamp = tx.TimeStamp ∧
    (Transaction.SetSign tx sig).Amount = tx.Amount ∧
    (Transaction.SetSign tx sig).Fee = tx.Fee ∧
    (Transaction.SetSign tx sig).Nonce = tx.Nonce ∧
    (Transaction.SetSign tx sig).Data = tx.Data ∧
    (Transaction.SetSign tx sig).TokenAddress = tx.TokenAddress := by
  have hs : Transaction.String tx1 = Transaction.String tx2 := by
    unfold Transaction.String
    rw [hFrom, hTo, hTime, hAmount, hFee, hNonce, hData, hToken]
  refine ⟨rfl, rfl, hs, ?_, rfl, rfl, rfl, rfl, rfl, rfl, rfl, rfl, rfl⟩
  unfold Transaction.Msg
  rw [hs]

/-- Witness of C18: an unsigned transaction and the same transaction with the
signature `[1, 2, 3]`. -/
theorem C18_signing_payload_excludes_signature_witness :
    (NewTransaction [0xab] [0xcd] 5 7 1 3 "d" "t").Sign
      ≠ (Transaction.SetSign (NewTransaction [0xab] [0xcd] 5 7 1 3 "d" "t") [1, 2, 3]).Sign ∧
    Transaction.String (NewTransaction [0xab] [0xcd] 5 7 1 3 "d" "t")
      = Transaction.String
          (Transaction.SetSign (NewTransaction [0xab] [0xcd] 5 7 1 3 "d" "t") [1, 2, 3]) ∧
    Transaction.Msg (fun b => b) (NewTransaction [0xab] [0xcd] 5 7 1 3 "d" "t")
      = Transaction.Msg (fun b => b)
          (Transaction.SetSign (NewTransaction [0xab] [0xcd] 5 7 1 3 "d" "t") [1, 2, 3]) :=
  ⟨by decide,
   (C18_signing_payload_excludes_signature (fun b => b)
      (NewTransaction [0xab] [0xcd] 5 7 1 3 "d" "t")
      (NewTransaction [0xab] [0xcd] 5 7 1 3 "d" "t")
      (Transaction.SetSign (NewTransaction [0xab] [0xcd] 5 7 1 3 "d" "t") [1, 2, 3])
      [1, 2, 3] rfl rfl rfl rfl rfl rfl rfl rfl).2.2.1,
   (C18_signing_payload_excludes_signature (fun b => b)
      (NewTransaction [0xab] [0xcd] 5 7 1 3 "d" "t")
      (NewTransaction [0xab] [0xcd] 5 7 1 3 "d" "t")
      (Transaction.SetSign (NewTransaction [0xab] [0xcd] 5 7 1 3 "d" "t") [1, 2, 3])
      [1, 2, 3] rfl rfl rfl rfl rfl rfl rfl rfl).2.2.2.1⟩

/-! ### `Transactions.QuickInsert` -/

theorem quickInsertLoop_some (t : Transaction) (l front r : List Transaction)
    (h : Transactions.quickInsertLoop t l front = some r) :
    ∃ (pre : List Transaction) (a b : Transaction) (post : List Transaction),
      l = pre ++ a :: b :: post ∧ r = (front ++ pre) ++ a :: t :: b :: post ∧
      a.Nonce < t.Nonce ∧ t.Nonce < b.Nonce := by
  induction l generalizing front with
  | nil => simp [Transactions.quickInsertLoop] at h
  | cons a l ih =>
    cases l with
    | nil => simp [Transactions.quickInsertLoop] at h
    | cons b rest =>
      by_cases hc : a.GetNonce < t.GetNonce ∧ t.GetNonce < b.GetNonce
      · simp only [Transactions.quickInsertLoop, hc, and_self, if_true, Option.some.injEq] at h
        exact ⟨[], a, b, rest, rfl, by rw [← h]; simp, hc.1, hc.2⟩
      · simp only [Transactions.quickInsertLoop, hc, if_false] at h
        obtain ⟨pre, a2, b2, post, h1, h2, h3, h4⟩ := ih (front ++ [a]) h
        exact ⟨a :: pre, a2, b2, post, by rw [h1]; rfl, by rw [h2]; simp, h3, h4⟩

theorem quickInsertLoop_finds (t a : Transaction) (l front : List Transaction)
    (ha : a.Nonce < t.Nonce) (hx : ∃ x ∈ l, t.Nonce < x.Nonce)
    (hne : ∀ x ∈ l, x.Nonce ≠ t.Nonce) :
    ∃ r, Transactions.quickInsertLoop t (a :: l) front = some r := by
  induction l generalizing a front with
  | nil =>
    obtain ⟨x, hx1, _⟩ := hx
    simp at hx1
  | cons b rest ih =>
    by_cases hc : t.Nonce < b.Nonce
    · have hcc : a.GetNonce < t.GetNonce ∧ t.GetNonce < b.GetNonce := ⟨ha, hc⟩
      refine ⟨((front ++ [a]) ++ [t]) ++ (b :: rest), ?_⟩
      simp only [Transactions.quickInsertLoop, hcc, and_self, if_true]
    · have hb : b.Nonce < t.Nonce := by
        have := hne b (List.mem_cons_self b rest)
        omega
      have hnc : ¬ (a.GetNonce < t.GetNonce ∧ t.GetNonce < b.GetNonce) := fun h => hc h.2
      simp only [Transactions.quickInsertLoop, hnc, if_false]
      apply ih b _ hb
      · obtain ⟨x, hx1, hx2⟩ := hx
        rcases List.mem_cons.mp hx1 with h | h
        · rw [h] at hx2; exact absurd hx2 hc
        · exact ⟨x, h, hx2⟩
      · exact fun x hx1 => hne x (List.mem_cons_of_mem b hx1)

theorem quickInsertLoop_none (t a : Transaction) (l front : List Transaction)
    (hs : List.Pairwise (fun x y : Transaction => x.Nonce < y.Nonce) (a :: l))
    (h : t.Nonce ≤ a.Nonce ∨ ∃ x ∈ l, x.Nonce = t.Nonce) :
    Transactions.quickInsertLoop t (a :: l) front = none := by
  induction l generalizing a front with
  | nil => simp [Transactions.quickInsertLoop]
  | cons b rest ih =>
    obtain ⟨h1, h2⟩ := List.pairwise_cons.mp hs
    have hab : a.Nonce < b.Nonce := h1 b (List.mem_cons_self b rest)
    have hnext : t.Nonce ≤ b.Nonce ∨ ∃ x ∈ rest, x.Nonce = t.Nonce := by
      rcases h with h | ⟨x, hx1, hx2⟩
      · left; omega
      · rcases List.mem_cons.mp hx1 with h3 | h3
        · left; rw [← hx2, h3]
        · right; exact ⟨x, h3, hx2⟩
    have hnc : ¬ (a.GetNonce < t.GetNonce ∧ t.GetNonce < b.GetNonce) := by
      rintro ⟨h3, h4⟩
      have h3b : a.Nonce < t.Nonce := h3
      have h4b : t.Nonce < b.Nonce := h4
      rcases hnext with h5 | ⟨x, hx1, hx2⟩
      · rcases h with h6 | ⟨y, hy1, hy2⟩
        · omega
        · rcases List.mem_cons.mp hy1 with h7 | h7
          · rw [h7] at hy2; omega
          · have := (List.pairwise_cons.mp h2).1 y h7
            omega
      · have := (List.pairwise_cons.mp h2).1 x hx1
        omega
    simp only [Transactions.quickInsertLoop, hnc, if_false]
    exact ih b _ h2 hnext

theorem sorted_insert_between (t a b : Transaction) (pre post : List Transaction)
    (hs : List.Pairwise (fun x y : Transaction => x.Nonce < y.Nonce) (pre ++ a :: b :: post))
    (h1 : a.Nonce < t.Nonce) (h2 : t.Nonce < b.Nonce) :
    List.Pairwise (fun x y : Transaction => x.Nonce < y.Nonce) (pre ++ a :: t :: b :: post) := by
  obtain ⟨p1, p2, p3⟩ := List.pairwise_append.mp hs
  obtain ⟨q1, q2⟩ := List.pairwise_cons.mp p2
  obtain ⟨q3, _⟩ := List.pairwise_cons.mp q2
  rw [List.pairwise_append]
  refine ⟨p1, ?_, ?_⟩
  · rw [List.pairwise_cons]
    refine ⟨?_, ?_⟩
    · intro y hy
      rcases List.mem_cons.mp hy with h | h
      · rw [h]; exact h1
      · exact q1 y h
    · rw [List.pairwise_cons]
      refine ⟨?_, q2⟩
      intro y hy
      rcases List.mem_cons.mp hy with h | h
      · rw [h]; exact h2
      · exact lt_trans h2 (q3 y h)
  · intro x hx y hy
    rcases List.mem_cons.mp hy with h | h
    · rw [h]; exact p3 x hx a (List.mem_cons_self _ _)
    · rcases List.mem_cons.mp h with h3 | h3
      · rw [h3]
        exact lt_trans (p3 x hx a (List.mem_cons_self _ _)) h1
      · exact p3 x hx y (List.mem_cons_of_mem a h3)

/-- In a list that is strictly ascending by nonce, no element has a nonce above
that of the last element. -/
theorem sorted_le_last (l : List Transaction) (last : Transaction)
    (hs : List.Pairwise (fun x y : Transaction => x.Nonce < y.Nonce) l)
    (h : l.getLast? = some last) : ∀ x ∈ l, x.Nonce ≤ last.Nonce := by
  obtain ⟨ys, hys⟩ := List.getLast?_eq_some_iff.mp h
  subst hys
  obtain ⟨_, _, p3⟩ := List.pairwise_append.mp hs
  intro x hx
  rcases List.mem_append.mp hx with h1 | h1
  · exact le_of_lt (p3 x h1 last (List.mem_singleton_self last))
  · rw [List.mem_singleton.mp h1]

/-- C19: on a list that is strictly ascending by nonce, `QuickInsert(t)` returns,
when no element has the nonce of `t`, a list that is strictly ascending by nonce,
one longer, and made of the original elements in their order with `t` inserted
once; when some element has the nonce of `t`, it returns the original list. -/
theorem C19_quickInsert_keeps_ascending (l : Transactions) (t : Transaction)
    (hs : List.Pairwise (fun x y : Transaction => x.Nonce < y.Nonce) l) :
    ((∀ x ∈ l, x.Nonce ≠ t.Nonce) →
      List.Pairwise (fun x y : Transaction => x.Nonce < y.Nonce)
        (Transactions.QuickInsert l t) ∧
      (Transactions.QuickInsert l t).length = l.length + 1 ∧
      ∃ pre post : List Transaction,
        l = pre ++ post ∧ Transactions.QuickInsert l t = pre ++ t :: post) ∧
    ((∃ x ∈ l, x.Nonce = t.Nonce) → Transactions.QuickInsert l t = l) := by
  cases l with
  | nil =>
    refine ⟨fun _ => ⟨?_, ?_, [], [], rfl, ?_⟩, ?_⟩
    · simp [Transactions.QuickInsert]
    · simp [Transactions.QuickInsert]
    · simp [Transactions.QuickInsert]
    · rintro ⟨x, hx, _⟩
      simp at hx
  | cons a l =>
    obtain ⟨last, hlast⟩ : ∃ last, (a :: l).getLast? = some last :=
      ⟨_, List.getLast?_eq_getLast (a :: l) (List.cons_ne_nil a l)⟩
    have hlastmem : last ∈ a :: l := List.mem_of_getLast?_eq_some hlast
    have hle := sorted_le_last (a :: l) last hs hlast
    have hge : ∀ x ∈ a :: l, a.Nonce ≤ x.Nonce := by
      intro x hx
      rcases List.mem_cons.mp hx with h | h
      · rw [h]
      · exact le_of_lt ((List.pairwise_cons.mp hs).1 x h)
    have hlen : ¬ (a :: l).length = 0 := by simp
    have hq : Transactions.QuickInsert (a :: l) t =
        if t.Nonce < a.Nonce then [t] ++ (a :: l)
        else if t.Nonce > last.Nonce then (a :: l) ++ [t]
        else
          match Transactions.quickInsertLoop t (a :: l) [] with
          | some list => list
          | none => a :: l := by
      unfold Transactions.QuickInsert
      rw [if_neg hlen, hlast]
      rfl
    rw [hq]
    by_cases h1 : t.Nonce < a.Nonce
    · rw [if_pos h1]
      refine ⟨fun _ => ⟨?_, by simp, [], a :: l, rfl, rfl⟩, ?_⟩
      · show List.Pairwise _ (t :: a :: l)
        rw [List.pairwise_cons]
        exact ⟨fun y hy => lt_of_lt_of_le h1 (hge y hy), hs⟩
      · rintro ⟨x, hx1, hx2⟩
        have := hge x hx1
        omega
    · rw [if_neg h1]
      by_cases h2 : t.Nonce > last.Nonce
      · rw [if_pos h2]
        refine ⟨fun _ => ⟨?_, by simp, a :: l, [], by simp, rfl⟩, ?_⟩
        · rw [List.pairwise_append]
          refine ⟨hs, List.pairwise_singleton _ _, ?_⟩
          intro x hx y hy
          rw [List.mem_singleton.mp hy]
          exact lt_of_le_of_lt (hle x hx) h2
        · rintro ⟨x, hx1, hx2⟩
          have := hle x hx1
          omega
      · rw [if_neg h2]
        refine ⟨?_, ?_⟩
        · intro hne
          have ha : a.Nonce < t.Nonce := by
            have := hne a (List.mem_cons_self a l)
            omega
          have hl : t.Nonce < last.Nonce := by
            have := hne last hlastmem
            omega
          have hlast2 : last ∈ l := by
            rcases List.mem_cons.mp hlastmem with h | h
            · rw [h] at hl; omega
            · exact h
          obtain ⟨r, hr⟩ := quickInsertLoop_finds t a l [] ha ⟨last, hlast2, hl⟩
            (fun x hx => hne x (List.mem_cons_of_mem a hx))
          obtain ⟨pre, a2, b2, post, e1, e2, e3, e4⟩ := quickInsertLoop_some t (a :: l) [] r hr
          rw [hr]
          show List.Pairwise _ r ∧ r.length = (a :: l).length + 1 ∧
            ∃ pre post : List Transaction, a :: l = pre ++ post ∧ r = pre ++ t :: post
          rw [List.nil_append] at e2
          refine ⟨?_, ?_, pre ++ [a2], b2 :: post, ?_, ?_⟩
          · rw [e2]
            rw [e1] at hs
            exact sorted_insert_between t a2 b2 pre post hs e3 e4
          · rw [e2, e1]
            simp only [List.length_append, List.length_cons]
            omega
          · rw [e1]; simp
          · rw [e2]; simp
        · intro hex
          have hnone := quickInsertLoop_none t a l [] hs (by
            obtain ⟨x, hx1, hx2⟩ := hex
            rcases List.mem_cons.mp hx1 with h | h
            · left; rw [← hx2, h]
            · right; exact ⟨x, h, hx2⟩)
          rw [hnone]

/-- Witness of C19: nonce 4 is inserted between the nonces 3 and 5, and a second
transaction with nonce 3 is not inserted. -/
theorem C19_quickInsert_keeps_ascending_witness :
    List.Pairwise (fun x y : Transaction => x.Nonce < y.Nonce)
      [pool.sampleTx 1, pool.sampleTx 3, pool.sampleTx 5] ∧
    Transactions.QuickInsert [pool.sampleTx 1, pool.sampleTx 3, pool.sampleTx 5]
      (pool.sampleTx 4)
      = [pool.sampleTx 1, pool.sampleTx 3, pool.sampleTx 4, pool.sampleTx 5] ∧
    Transactions.QuickInsert [pool.sampleTx 1, pool.sampleTx 3, pool.sampleTx 5]
      (NewTransaction [0xab] [0xef] 0 0 0 3 "other" "")
      = [pool.sampleTx 1, pool.sampleTx 3, pool.sampleTx 5] :=
  ⟨by decide, by decide,
   (C19_quickInsert_keeps_ascending [pool.sampleTx 1, pool.sampleTx 3, pool.sampleTx 5]
      (NewTransaction [0xab] [0xef] 0 0 0 3 "other" "") (by decide)).2
      ⟨pool.sampleTx 3, by decide, rfl⟩⟩

end userevent
